import Mathlib

/-!
# Verification of the Baugesuch text-extraction engine

Shallow embedding of `src/baugesuch_reader.py` (the text segmentation and
field-extraction engine): Python strings are modelled as `List Char`
(sequences of Unicode code points); the precompiled regular expressions are
embedded as deterministic scanners that follow the Python `re` backtracking
semantics (leftmost match, ordered alternation, greedy/lazy quantifiers) for
the concrete patterns of the source.  Character classes (`\s`, `\w`, the
case folding used by `re.I`) are modelled over the alphabet the program
manipulates: ASCII plus the German letters and typographic characters
appearing in the source's constants.
-/

/-- Python strings are sequences of code points. -/
abbrev LC := List Char

def lcOf (s : String) : LC := s.toList

/-- The upper/lower case pairs of the modelled alphabet: ASCII `A`-`Z`
plus `Ä`, `Ö`, `Ü`. -/
def casePairs : List (Char × Char) :=
  [('A', 'a'), ('B', 'b'), ('C', 'c'), ('D', 'd'), ('E', 'e'), ('F', 'f'),
   ('G', 'g'), ('H', 'h'), ('I', 'i'), ('J', 'j'), ('K', 'k'), ('L', 'l'),
   ('M', 'm'), ('N', 'n'), ('O', 'o'), ('P', 'p'), ('Q', 'q'), ('R', 'r'),
   ('S', 's'), ('T', 't'), ('U', 'u'), ('V', 'v'), ('W', 'w'), ('X', 'x'),
   ('Y', 'y'), ('Z', 'z'), ('Ä', 'ä'), ('Ö', 'ö'), ('Ü', 'ü')]

/-- Case folding used to model `re.IGNORECASE` and `str.lower` for the
alphabet of the program. -/
def lowerC (c : Char) : Char :=
  match casePairs.find? (fun p => p.1 = c) with
  | some p => p.2
  | none => c

/-- Upper-case table used to model `str.title`. -/
def upperC (c : Char) : Char :=
  match casePairs.find? (fun p => p.2 = c) with
  | some p => p.1
  | none => c

def lowerList (l : LC) : LC := l.map lowerC

/-- The Python regex class `\s` / `str` whitespace, over the characters the
program can meet (ASCII whitespace plus the common Unicode space
separators). -/
def isSpaceRe (c : Char) : Bool :=
  c = ' ' ∨ c = '\t' ∨ c = '\n' ∨ c = '\r' ∨ c = '\u000B' ∨ c = '\u000C' ∨
  c = '\u001C' ∨ c = '\u001D' ∨ c = '\u001E' ∨ c = '\u001F' ∨
  c = '\u0085' ∨ c = ' ' ∨ c = ' ' ∨ c = ' ' ∨ c = '　'

/-- The class `[ \t]` of `RE_SPACES`. -/
def isHT (c : Char) : Bool := c = ' ' ∨ c = '\t'

/-- German letters beyond ASCII that occur in the program's constants. -/
def isGermanExtra (c : Char) : Bool :=
  c = 'ä' ∨ c = 'ö' ∨ c = 'ü' ∨ c = 'ß' ∨ c = 'Ä' ∨ c = 'Ö' ∨ c = 'Ü'

/-- The Python regex class `\w` (word character), over the modelled
alphabet. -/
def isWordRe (c : Char) : Bool :=
  c.isAlpha ∨ c.isDigit ∨ c = '_' ∨ isGermanExtra c

/-- A character that has case, for `str.title` (letters of the modelled
alphabet). -/
def isCasedC (c : Char) : Bool := c.isAlpha ∨ isGermanExtra c

/-- `str.title`: the first cased character of every run of cased characters
is upper-cased, the others lower-cased. The flag says whether the previous
character was cased. -/
def pyTitleGo : Bool → LC → LC
  | _, [] => []
  | prevCased, c :: rest =>
    (if isCasedC c then (if prevCased then lowerC c else upperC c) else c) ::
      pyTitleGo (isCasedC c) rest

def pyTitle (l : LC) : LC := pyTitleGo false l

/-- `str.strip()` with no argument strips whitespace from both ends. -/
def pyStrip (l : LC) : LC :=
  ((((l.dropWhile isSpaceRe).reverse).dropWhile isSpaceRe)).reverse

/-- `str.strip(chars)`. -/
def pyStripChars (chars : LC) (l : LC) : LC :=
  (((l.dropWhile (chars.contains ·)).reverse).dropWhile (chars.contains ·)).reverse

/-- Length of the run of characters satisfying `p` at the head. -/
def countWhile (p : Char → Bool) : LC → Nat
  | [] => 0
  | c :: rest => if p c then countWhile p rest + 1 else 0

/-- Case-sensitive prefix test (`pat` a plain string). -/
def startsWithCS : LC → LC → Bool
  | [], _ => true
  | _ :: _, [] => false
  | p :: ps, c :: cs => p = c ∧ startsWithCS ps cs

/-- Case-insensitive prefix test: `pat` is given lower-cased. -/
def startsWithCI : LC → LC → Bool
  | [], _ => true
  | _ :: _, [] => false
  | p :: ps, c :: cs => p = lowerC c ∧ startsWithCI ps cs

/-- Python's substring test `pat in s` (case-sensitive). -/
def containsSub (pat : LC) : LC → Bool
  | [] => startsWithCS pat []
  | l@(_ :: rest) => startsWithCS pat l ∨ containsSub pat rest

/-- Number of positions of `l` where `pat` starts (so `= 1` states "exactly
one occurrence"). -/
def countOccur (pat : LC) : LC → Nat
  | [] => if startsWithCS pat [] then 1 else 0
  | l@(_ :: rest) => (if startsWithCS pat l then 1 else 0) + countOccur pat rest

/-- Python's `str.replace` (all non-overlapping occurrences, left to
right). `fuel` bounds the scan; it is called with the length of the text. -/
def replaceAllGo (pat rep : LC) : Nat → LC → LC
  | _, [] => []
  | 0, l => l
  | fuel + 1, l@(c :: rest) =>
    if pat ≠ [] ∧ startsWithCS pat l then
      rep ++ replaceAllGo pat rep fuel (l.drop pat.length)
    else c :: replaceAllGo pat rep fuel rest

def replaceAll (pat rep l : LC) : LC := replaceAllGo pat rep l.length l

/-- Python's `l[-n:]`. -/
def lastN (n : Nat) (l : List LC) : List LC := l.drop (l.length - n)

/-- Python `dict` update `d[k] = v`: an existing key keeps its position,
a new key is appended. -/
def dictUpdate : List (LC × LC) → LC → LC → List (LC × LC)
  | [], k, v => [(k, v)]
  | (k', v') :: rest, k, v =>
    if k' = k then (k', v) :: rest else (k', v') :: dictUpdate rest k v

def dictGet (d : List (LC × LC)) (k : LC) : LC :=
  match d.find? (fun p => p.1 = k) with
  | some p => p.2
  | none => []

/-! ## TextNormalizer: `_collapse_text` -/

/-- `RE_SOFT_HYPH.sub("", s)`: remove soft hyphens. -/
def subSoftHyph (l : LC) : LC := l.filter (· ≠ '­')

/-- `RE_HYPHEN_NL.sub("", s)`: delete `-\n` pairs, left to right. -/
def subHyphenNL : LC → LC
  | [] => []
  | [c] => [c]
  | c :: d :: rest =>
    if c = '-' ∧ d = '\n' then subHyphenNL rest
    else c :: subHyphenNL (d :: rest)

/-- `s.replace("\r", "\n")`. -/
def crToNl (l : LC) : LC := l.map (fun c => if c = '\r' then '\n' else c)

/-- `RE_SPACES.sub(" ", s)`: every maximal `[ \t]+` run becomes one space. -/
def collapseSpaces : LC → LC
  | [] => []
  | [c] => if isHT c then [' '] else [c]
  | c :: d :: rest =>
    if isHT c then
      (if isHT d then collapseSpaces (d :: rest)
       else ' ' :: collapseSpaces (d :: rest))
    else c :: collapseSpaces (d :: rest)

/-- `RE_ML_NL.sub("\n\n", s)`: every `\n` run of length at least 2 becomes
exactly 2 (while the first three characters are newlines, the first is
dropped). -/
def collapseNLs : LC → LC
  | [] => []
  | [c] => [c]
  | [c, d] => [c, d]
  | c :: d :: e :: rest =>
    if c = '\n' ∧ d = '\n' ∧ e = '\n' then collapseNLs (d :: e :: rest)
    else c :: collapseNLs (d :: e :: rest)

/-- `_collapse_text`. -/
def collapseText (s : LC) : LC :=
  if s = [] then []
  else pyStrip (collapseNLs (collapseSpaces (crToNl (subHyphenNL (subSoftHyph s)))))

/-! ## `_clean_spaces` -/

/-- `RE_JOIN_LINES.sub(" ", s)`: every maximal `\s` run containing a newline
becomes one space (matches of `\s*\n\s*` are exactly those runs). `fuel` is
called with the length of the text. -/
def joinLinesGo : Nat → LC → LC
  | _, [] => []
  | 0, l => l
  | fuel + 1, l@(c :: rest) =>
    if isSpaceRe c then
      let k := countWhile isSpaceRe l
      if (l.take k).contains '\n' then ' ' :: joinLinesGo fuel (l.drop k)
      else l.take k ++ joinLinesGo fuel (l.drop k)
    else c :: joinLinesGo fuel rest

def joinLinesSub (l : LC) : LC := joinLinesGo l.length l

/-- `RE_MULTI_SPACE.sub(" ", s)`: every maximal `\s` run of length at least 2
becomes one space. -/
def multiSpaceGo : Nat → LC → LC
  | _, [] => []
  | 0, l => l
  | fuel + 1, l@(c :: rest) =>
    if isSpaceRe c then
      let k := countWhile isSpaceRe l
      if 2 ≤ k then ' ' :: multiSpaceGo fuel (l.drop k)
      else c :: multiSpaceGo fuel rest
    else c :: multiSpaceGo fuel rest

def multiSpaceSub (l : LC) : LC := multiSpaceGo l.length l

/-- `_clean_spaces`. -/
def cleanSpaces (s : LC) : LC :=
  pyStrip (multiSpaceSub (collapseSpaces (joinLinesSub s)))

/-! ## MunicipalityFilter: `RE_WURENLOS`, `RE_PLZ_5436`, `_looks_like_wurenlos` -/

/-- `\b` before a position: the previous character (if any) is not a word
character (all our searched tokens start with a word character). -/
def wbBefore : Option Char → Bool
  | none => true
  | some c => ¬ isWordRe c

/-- `\b` after a token ending in a word character: the next character (if
any) is not a word character. -/
def wbHead : LC → Bool
  | [] => true
  | c :: _ => ¬ isWordRe c

/-- The words matched by `\bw(?:ue)?r(?:en)?los\b` (lower-cased): the four
ways of taking the optional groups. -/
def wurVariants : List LC :=
  [lcOf "wuerenlos", lcOf "wuerlos", lcOf "wrenlos", lcOf "wrlos"]

/-- `re.search` for a word-bounded case-insensitive literal alternation:
true iff at some position the previous character is a non-word character and
one of `pats` (lower-cased literals ending in a word character) matches,
followed by a non-word character. -/
def scanWordCI (pats : List LC) : Option Char → LC → Bool
  | _, [] => false
  | prev, l@(c :: rest) =>
    (wbBefore prev ∧ pats.any fun v => startsWithCI v l ∧ wbHead (l.drop v.length)) ∨
      scanWordCI pats (some c) rest

/-- Case-sensitive variant (for patterns compiled without `re.I`). -/
def scanWordCS (pats : List LC) : Option Char → LC → Bool
  | _, [] => false
  | prev, l@(c :: rest) =>
    (wbBefore prev ∧ pats.any fun v => startsWithCS v l ∧ wbHead (l.drop v.length)) ∨
      scanWordCS pats (some c) rest

/-- `_looks_like_wurenlos`. -/
def looksLikeWurenlos (t : LC) : Bool :=
  scanWordCI wurVariants none t ∨ scanWordCS [lcOf "5436"] none t

/-! ## BoxLocator: `RE_BOX`, `RE_HEADER_LINE`, `_find_boxes_in_text`

`HDR_RAW = (?:Baugesuch\s*spublikation|Baugesuchspublikation|Baugesuchspubli[kc]ation)`:
at a given start the match end is unique: `\s*` is forced to the whole
space run (its successor must be the non-space `s`), the second alternative
is the first with an empty run, and the `[c]` case of the third excludes the
others.  `FTR_RAW = BAUVERWALTUNG\s+W[ÜU]RENLOS` likewise. -/

/-- End of the `HDR_RAW` match at the head of `u`, if any. -/
def headerEndAt (u : LC) : Option Nat :=
  if lowerList (u.take 9) = lcOf "baugesuch" then
    if lowerList ((u.drop (9 + countWhile isSpaceRe (u.drop 9))).take 12) =
        lcOf "spublikation" then
      some (21 + countWhile isSpaceRe (u.drop 9))
    else if countWhile isSpaceRe (u.drop 9) = 0 ∧
        lowerList (u.take 21) = lcOf "baugesuchspublication" then some 21
    else none
  else none

/-- Length of the `FTR_RAW` match at the head of `u`, if any. -/
def footerLenAt (u : LC) : Option Nat :=
  if lowerList (u.take 13) = lcOf "bauverwaltung" then
    if 1 ≤ countWhile isSpaceRe (u.drop 13) ∧
        (lowerList ((u.drop (13 + countWhile isSpaceRe (u.drop 13))).take 8) =
            lcOf "würenlos" ∨
          lowerList ((u.drop (13 + countWhile isSpaceRe (u.drop 13))).take 8) =
            lcOf "wurenlos") then
      some (21 + countWhile isSpaceRe (u.drop 13))
    else none
  else none

/-- First footer match at or after the head of `v`: `(offset, length)`.
This is the lazy `.*?` search of `RE_BOX`. -/
def footerFind : LC → Option (Nat × Nat)
  | [] => none
  | v@(_ :: rest) =>
    match footerLenAt v with
    | some fl => some (0, fl)
    | none => (footerFind rest).map (fun p => (p.1 + 1, p.2))

/-- Length of the `RE_BOX` match starting exactly at the head of `u`
(header, `\b`, lazy middle, first footer). -/
def boxMatchAt (u : LC) : Option Nat :=
  match headerEndAt u with
  | some e =>
    if wbHead (u.drop e) then
      match footerFind (u.drop e) with
      | some (d, fl) => some (e + d + fl)
      | none => none
    else none
  | none => none

/-- `RE_BOX.findall`: leftmost matches, continuing after each match. -/
def scanBoxesGo : Nat → LC → List LC
  | 0, _ => []
  | _ + 1, [] => []
  | fuel + 1, t@(_ :: rest) =>
    match boxMatchAt t with
    | some n => t.take n :: scanBoxesGo fuel (t.drop n)
    | none => scanBoxesGo fuel rest

/-- `RE_HEADER_LINE.sub("", b, count=1).strip()`: the anchored header (with
`\b\s*`) is removed from the front when it matches, then both ends are
stripped. -/
def stripHeaderLine (b : LC) : LC :=
  match headerEndAt b with
  | some e =>
    if wbHead (b.drop e) then pyStrip (b.drop (e + countWhile isSpaceRe (b.drop e)))
    else pyStrip b
  | none => pyStrip b

/-- `_find_boxes_in_text`. -/
def findBoxesInText (txt : LC) : List LC :=
  let t := collapseText txt
  (scanBoxesGo t.length t).map stripHeaderLine

/-! ## EntrySegmenter (fallback): `_split_entries_by_labels` -/

/-- The class `[A-ZÄÖÜ]` (no `re.I`). -/
def isCapDE (c : Char) : Bool :=
  c.isUpper ∨ c = 'Ä' ∨ c = 'Ö' ∨ c = 'Ü'

/-- The class `[a-zäöüß]`. -/
def isLowerDE (c : Char) : Bool :=
  c.isLower ∨ c = 'ä' ∨ c = 'ö' ∨ c = 'ü' ∨ c = 'ß'

/-- The head of `l` is a capital `[A-ZÄÖÜ]`. -/
def capHead : LC → Bool
  | d :: _ => isCapDE d
  | [] => false

/-- `re.sub(r"([.:;])\s+(?=[A-ZÄÖÜ])", "\1\n\n", page)`: soft
paragraphing. -/
def softParaGo : Nat → LC → LC
  | _, [] => []
  | 0, l => l
  | fuel + 1, c :: rest =>
    if c = '.' ∨ c = ':' ∨ c = ';' then
      let k := countWhile isSpaceRe rest
      if 1 ≤ k ∧ capHead (rest.drop k) then
        c :: '\n' :: '\n' :: softParaGo fuel (rest.drop k)
      else c :: softParaGo fuel rest
    else c :: softParaGo fuel rest

def softParaSub (l : LC) : LC := softParaGo l.length l

def labelsList : List LC :=
  [lcOf "Bauherrschaft", lcOf "Bauvorhaben", lcOf "Lage", lcOf "Zone", lcOf "Zusatzgesuch"]

/-- Indices of the case-sensitive word-bounded occurrences of
`Bauherrschaft` (`re.finditer(r"\bBauherrschaft\b", page)`; occurrences
cannot overlap, since no character of `auherrschaft` is `B`, so advancing by
one character is the same as continuing after an accepted match). -/
def anchorScan : Option Char → Nat → LC → List Nat
  | _, _, [] => []
  | prev, idx, l@(c :: rest) =>
    if wbBefore prev ∧ startsWithCS (lcOf "Bauherrschaft") l ∧ wbHead (l.drop 13) then
      idx :: anchorScan (some c) (idx + 1) rest
    else anchorScan (some c) (idx + 1) rest

/-- `page[p:q]`. -/
def segOf (t : LC) (p q : Nat) : LC := (t.drop p).take (q - p)

/-- The stripped blocks between consecutive anchor positions (the last runs
to the end of the page). -/
def buildBlocks (page : LC) : List Nat → List LC
  | [] => []
  | p :: rest =>
    let q := match rest with | q :: _ => q | [] => page.length
    pyStrip (segOf page p q) :: buildBlocks page rest

/-- `sum(1 for lab in LABELS if re.search(rf"\b{lab}\b", block))`. -/
def labelHits (block : LC) : Nat :=
  (labelsList.filter (fun lab => scanWordCS [lab] none block)).length

/-- `_split_entries_by_labels`. -/
def splitEntriesByLabels (txt : LC) : List LC :=
  let page := softParaSub (collapseText txt)
  (buildBlocks page (anchorScan none 0 page)).filter (fun b => 3 ≤ labelHits b)

/-! ## FieldSlicer: `RE_LABELS_POS`, `_slice_fields_by_positions` -/

/-- First label alternative matching case-insensitively at the head (no word
boundary in `RE_LABELS_POS`): `(length, matched text)`. -/
def labelAtHead (l : LC) : Option (Nat × LC) :=
  match labelsList.find? (fun lab => startsWithCI (lowerList lab) l) with
  | some lab => some (lab.length, l.take lab.length)
  | none => none

/-- `RE_LABELS_POS.finditer(core)`: `(start, end, label text)` triples; the
match end includes `\s*:?`. -/
def labelScanGo : Nat → Nat → LC → List (Nat × Nat × LC)
  | _, _, [] => []
  | 0, _, _ => []
  | fuel + 1, idx, l@(_ :: rest) =>
    match labelAtHead l with
    | some (len, txtm) =>
      let m := countWhile isSpaceRe (l.drop len)
      let colon : Nat := match l.drop (len + m) with | ':' :: _ => 1 | _ => 0
      let e := len + m + colon
      (idx, idx + e, txtm) :: labelScanGo fuel (idx + e) (l.drop e)
    | none => labelScanGo fuel (idx + 1) rest

def labelFindAll (core : LC) : List (Nat × Nat × LC) :=
  labelScanGo core.length 0 core

/-- `RE_CAMEL_GAP.sub(" ", val)`: insert a space at every lower-to-upper
boundary. -/
def camelGapSub : LC → LC
  | a :: b :: rest =>
    if isLowerDE a ∧ isCapDE b then a :: ' ' :: camelGapSub (b :: rest)
    else a :: camelGapSub (b :: rest)
  | l => l

/-- The per-value cleanup of `_slice_fields_by_positions`. -/
def fieldCleanup (val : LC) : LC :=
  pyStripChars (lcOf " ·;:,")
    (camelGapSub (collapseSpaces (joinLinesSub (subHyphenNL (subSoftHyph val)))))

def sliceLoop (core : LC) : List (Nat × Nat × LC) → List (LC × LC) → List (LC × LC)
  | [], acc => acc
  | m :: rest, acc =>
    let e := match rest with | m2 :: _ => m2.1 | [] => core.length
    let val := fieldCleanup (segOf core m.2.1 e)
    sliceLoop core rest (dictUpdate acc (pyTitle m.2.2) val)

/-- `_slice_fields_by_positions`. -/
def sliceFieldsByPositions (core : LC) : List (LC × LC) :=
  sliceLoop core (labelFindAll core) (labelsList.map (fun lab => (lab, [])))

/-! ## FieldRescuer: `_pick_longer`, `_upgrade_from_global_patterns`

The rescue regexes are embedded compositionally: a pattern fragment is a
function `LC → Option Nat` returning the number of characters a successful
match consumes at the head of its argument, `none` on failure; ordered
choice and greedy/lazy quantifier backtracking follow the `re` engine. -/

/-- Sequencing with a case-insensitive literal. -/
def litThen (lit : LC) (cont : LC → Option Nat) (w : LC) : Option Nat :=
  if startsWithCI lit w then (cont (w.drop lit.length)).map (lit.length + ·) else none

/-- `\s*` followed by a continuation that cannot start with `\s` (all uses
below): the run is forced, no backtracking. -/
def spacesThen (cont : LC → Option Nat) (w : LC) : Option Nat :=
  let m := countWhile isSpaceRe w
  (cont (w.drop m)).map (m + ·)

/-- `\d+` followed by a continuation that cannot start with a digit (or the
end of the pattern): the full run is forced. -/
def digitsThen (cont : LC → Option Nat) (w : LC) : Option Nat :=
  let d := countWhile Char.isDigit w
  if 1 ≤ d then (cont (w.drop d)).map (d + ·) else none

/-- Greedy repetition backtracking: try `f k` for `k = R, R-1, ..., 1`. -/
def greedyRunLoopPos (f : Nat → Option Nat) : Nat → Option Nat
  | 0 => none
  | k + 1 =>
    match f (k + 1) with
    | some t => some t
    | none => greedyRunLoopPos f k

/-- A greedy `cls*` run followed by `cont` (`k = R ... 0`). -/
def runStarThen (cls : Char → Bool) (cont : LC → Option Nat) (w : LC) : Option Nat :=
  match greedyRunLoopPos (fun k => (cont (w.drop k)).map (k + ·)) (countWhile cls w) with
  | some t => some t
  | none => cont w

/-- A greedy `cls+` run followed by `cont` (`k = R ... 1`). -/
def runPlusThen (cls : Char → Bool) (cont : LC → Option Nat) (w : LC) : Option Nat :=
  greedyRunLoopPos (fun k => (cont (w.drop k)).map (k + ·)) (countWhile cls w)

/-- A greedy optional literal (`lit?`): with it first, then without. -/
def optLitThen (lit : LC) (cont : LC → Option Nat) (w : LC) : Option Nat :=
  match litThen lit cont w with
  | some t => some t
  | none => cont w

/-- The class `[\w\-]`. -/
def wdClass (c : Char) : Bool := isWordRe c ∨ c = '-'

/-- The class `[A-Za-zÄÖÜäöüß\-]`. -/
def streetClass (c : Char) : Bool := c.isAlpha ∨ isGermanExtra c ∨ c = '-'

/-- The group-leading class `[A-ZÄÖÜ]` under `re.I`. -/
def bhFirstClass (c : Char) : Bool :=
  isCapDE c ∨ ('a' ≤ c ∧ c ≤ 'z') ∨ c = 'ä' ∨ c = 'ö' ∨ c = 'ü'

/-- The body class `[\wÄÖÜäöüß\-. ]`. -/
def bhBodyClass (c : Char) : Bool := isWordRe c ∨ c = '-' ∨ c = '.' ∨ c = ' '

/-- `W[üu]renlos` under `re.I`. -/
def wXrenlos : LC → Option Nat
  | a :: b :: rest =>
    if lowerC a = 'w' ∧ (lowerC b = 'ü' ∨ lowerC b = 'u') ∧
        startsWithCI (lcOf "renlos") rest then some 8 else none
  | _ => none

/-- `(?:strasse|straße|str\.?)` followed by `cont` (ordered alternation,
`\.?` greedy). -/
def streetSuffixAlts (cont : LC → Option Nat) (w : LC) : Option Nat :=
  match litThen (lcOf "strasse") cont w with
  | some t => some t
  | none =>
    match litThen (lcOf "straße") cont w with
    | some t => some t
    | none =>
      match litThen (lcOf "str.") cont w with
      | some t => some t
      | none => litThen (lcOf "str") cont w

/-- `\s*\d+,\s*5436\s*W[üu]renlos` (the tail of the applicant pattern). -/
def bhTail : LC → Option Nat :=
  spacesThen (digitsThen (litThen (lcOf ",") (spacesThen (litThen (lcOf "5436")
    (spacesThen wXrenlos)))))

/-- `,\s*[A-Za-zÄÖÜäöüß\-]+(?:strasse|straße|str\.?)` plus the tail. -/
def bhComma : LC → Option Nat :=
  litThen (lcOf ",") (spacesThen (runPlusThen streetClass (streetSuffixAlts bhTail)))

/-- The lazy body `[\wÄÖÜäöüß\-. ]+?` of the applicant group: consume one
class character at a time, trying the continuation after each. -/
def bhBodyScan : LC → Option Nat
  | [] => none
  | c :: rest =>
    if bhBodyClass c then
      match bhComma rest with
      | some t => some (1 + t)
      | none => (bhBodyScan rest).map (1 + ·)
    else none

/-- The captured group of the applicant pattern, at the head of `g`. -/
def bhGroupAt : LC → Option Nat
  | [] => none
  | c :: rest => if bhFirstClass c then (bhBodyScan rest).map (1 + ·) else none

/-- `(?:Bauherrschaft\s*:?\s*)?`: end of the greedy optional prefix (the
backtracking alternatives all fail into the same positions, see the
uniqueness notes above). -/
def bhPrefixEnd (u : LC) : Option Nat :=
  if startsWithCI (lcOf "bauherrschaft") u then
    let m1 := countWhile isSpaceRe (u.drop 13)
    let colon : Nat := match u.drop (13 + m1) with | ':' :: _ => 1 | _ => 0
    let m2 := countWhile isSpaceRe (u.drop (13 + m1 + colon))
    some (13 + m1 + colon + m2)
  else none

/-- The applicant pattern at the head of `u`: `(group offset, group
length)`; the optional prefix is tried first, then the bare group. -/
def bhMatchAt (u : LC) : Option (Nat × Nat) :=
  match bhPrefixEnd u with
  | some j =>
    match bhGroupAt (u.drop j) with
    | some glen => some (j, glen)
    | none =>
      match bhGroupAt u with
      | some glen => some (0, glen)
      | none => none
  | none =>
    match bhGroupAt u with
    | some glen => some (0, glen)
    | none => none

/-- `re.search` for the applicant pattern: group text of the leftmost
match. -/
def bhSearch : LC → Option LC
  | [] => none
  | u@(_ :: rest) =>
    match bhMatchAt u with
    | some (off, glen) => some ((u.drop off).take glen)
    | none => bhSearch rest

/-- Leftmost-match search for a head-anchored pattern returning the matched
text. -/
def searchPat (pat : LC → Option Nat) : LC → Option LC
  | [] => match pat [] with | some _ => some [] | none => none
  | u@(_ :: rest) =>
    match pat u with
    | some n => some (u.take n)
    | none => searchPat pat rest

/-- Leftmost-match search returning the match start index. -/
def searchPos (pat : LC → Option Nat) : LC → Option Nat
  | [] => match pat [] with | some _ => some 0 | none => none
  | u@(_ :: rest) =>
    match pat u with
    | some _ => some 0
    | none => (searchPos pat rest).map (1 + ·)

/-- The lookahead `(?=.*?\bParzelle\b)` of both project-description
patterns, threaded as the final continuation (the group always ends in the
word character `n` of `boxen`, giving the `\b` context). -/
def bvLookahead (w : LC) : Option Nat :=
  if scanWordCI [lcOf "parzelle"] (some 'n') w then some 0 else none

/-- First project-description pattern
`Erweiterung\s*Silo[\w\-]*\s*anlage?\s*und\s*Umnutzung\s*Stall\s*\(teilweise\)\s*in\s*Milchkuh[\w\-]*boxen`
with the parcel lookahead. -/
def bv1At : LC → Option Nat :=
  litThen (lcOf "erweiterung") (spacesThen (litThen (lcOf "silo")
    (runStarThen wdClass (spacesThen (litThen (lcOf "anlag") (optLitThen (lcOf "e")
      (spacesThen (litThen (lcOf "und") (spacesThen (litThen (lcOf "umnutzung")
        (spacesThen (litThen (lcOf "stall") (spacesThen (litThen (lcOf "(teilweise)")
          (spacesThen (litThen (lcOf "in") (spacesThen (litThen (lcOf "milchkuh")
            (runStarThen wdClass (litThen (lcOf "boxen") bvLookahead))))))))))))))))))))

/-- Fallback project-description pattern `Erweiterung.*?Milchkuh[\w\-]*boxen`
(the lazy `.*?` grows one character at a time) with the parcel lookahead. -/
def bv2Dots : LC → Option Nat
  | [] =>
    litThen (lcOf "milchkuh") (runStarThen wdClass (litThen (lcOf "boxen") bvLookahead)) []
  | w@(_ :: rest) =>
    match litThen (lcOf "milchkuh")
        (runStarThen wdClass (litThen (lcOf "boxen") bvLookahead)) w with
    | some t => some t
    | none => (bv2Dots rest).map (1 + ·)

def bv2At : LC → Option Nat := litThen (lcOf "erweiterung") bv2Dots

/-- Location pattern
`Parzelle\s*\d+\s*\(Plan\s*\d+\)\s*,\s*[A-Za-zÄÖÜäöüß\-]+(?:strasse|straße|str\.?)\s*\d+`. -/
def lageAt : LC → Option Nat :=
  litThen (lcOf "parzelle") (spacesThen (digitsThen (spacesThen (litThen (lcOf "(plan")
    (spacesThen (digitsThen (litThen (lcOf ")") (spacesThen (litThen (lcOf ",")
      (spacesThen (runPlusThen streetClass (streetSuffixAlts
        (spacesThen (digitsThen (fun _ => some 0)))))))))))))))

/-- `Landschafts[\w\-]*zone` (`re.I`). -/
def landschaftsAt : LC → Option Nat :=
  litThen (lcOf "landschafts") (runStarThen wdClass (litThen (lcOf "zone") (fun _ => some 0)))

/-- `Departement\s*Bau,\s*Verkehr\s*und\s*Umwelt` (`re.I`). -/
def departementAt : LC → Option Nat :=
  litThen (lcOf "departement") (spacesThen (litThen (lcOf "bau,") (spacesThen
    (litThen (lcOf "verkehr") (spacesThen (litThen (lcOf "und") (spacesThen
      (litThen (lcOf "umwelt") (fun _ => some 0)))))))))

/-- `re.match(r"^\s*Parzelle\b", s, re.I)` as a boolean. -/
def startsParzelleMatch (s : LC) : Bool :=
  let m := countWhile isSpaceRe s
  startsWithCI (lcOf "parzelle") (s.drop m) ∧ wbHead (s.drop (m + 8))

/-- `_pick_longer`. -/
def pickLonger (current candidate : LC) : LC :=
  let c := pyStrip candidate
  let cur := pyStrip current
  if cur.length + 8 < c.length then c else cur

/-- `"Bunten"/"Bünten" -> "Büntern"` and the decomposed-umlaut fix of
`Tägerhard` (the source's first literal is `Ta` followed by a combining
diaeresis). -/
def buentenFix (l : LC) : LC :=
  replaceAll (lcOf "Bünten") (lcOf "Büntern") (replaceAll (lcOf "Bunten") (lcOf "Büntern") l)

def taegerhardFix (l : LC) : LC :=
  replaceAll (lcOf "Tägerhard") (lcOf "Tägerhard") l

/-- `_upgrade_from_global_patterns`. -/
def upgradeFromGlobalPatterns (block : LC) (fields : List (LC × LC)) : List (LC × LC) :=
  let b := cleanSpaces block
  let f1 :=
    match bhSearch b with
    | some g =>
      dictUpdate fields (lcOf "Bauherrschaft")
        (pickLonger (dictGet fields (lcOf "Bauherrschaft")) (buentenFix g))
    | none => fields
  let f2 :=
    match (match searchPat bv1At b with
           | some g => some g
           | none => searchPat bv2At b) with
    | some g =>
      let cand := replaceAll (lcOf "Siloanlage") (lcOf "Silolanlage") g
      if (dictGet f1 (lcOf "Bauvorhaben")).length + 5 < cand.length then
        dictUpdate f1 (lcOf "Bauvorhaben") (cleanSpaces cand)
      else f1
    | none => f1
  let f3 :=
    match searchPat lageAt b with
    | some g =>
      let cand := taegerhardFix (buentenFix g)
      let cur := dictGet f2 (lcOf "Lage")
      if containsSub (lcOf "Erweiterung") cur ∨ containsSub (lcOf "Umnutzung") cur ∨
          ¬ startsParzelleMatch cur then
        dictUpdate f2 (lcOf "Lage") (cleanSpaces cand)
      else if cur.length + 4 < cand.length then dictUpdate f2 (lcOf "Lage") (cleanSpaces cand)
      else dictUpdate f2 (lcOf "Lage") (cleanSpaces cur)
    | none => f2
  let f4 :=
    if containsSub (lcOf "Ausserhalb Bauzone") b ∧ (searchPos landschaftsAt b).isSome then
      dictUpdate f3 (lcOf "Zone") (lcOf "Ausserhalb Bauzone – Landschaftsschutzzone")
    else if containsSub (lcOf "Ausserhalb Bauzone") b ∧ containsSub (lcOf "Wald") b then
      dictUpdate f3 (lcOf "Zone") (lcOf "Ausserhalb Bauzone – Wald")
    else f3
  let f5 :=
    if (searchPos departementAt b).isSome then
      dictUpdate f4 (lcOf "Zusatzgesuch") (lcOf "Departement Bau, Verkehr und Umwelt")
    else f4
  f5.map (fun p => (p.1, cleanSpaces p.2))

/-! ## EntryNormalizer and `_parse_entry` -/

/-- `Gesuchsauflage\s+vom` at the head. -/
def gesuchsAt : LC → Option Nat :=
  litThen (lcOf "gesuchsauflage") (fun w =>
    let m := countWhile isSpaceRe w
    if 1 ≤ m then (litThen (lcOf "vom") (fun _ => some 0) (w.drop m)).map (m + ·) else none)

/-- Step 1 of `_parse_entry`: `(core, others)` — the raw `others` span from
the first `Gesuchsauflage vom` to the end of the first footer after it (or
the start of the next header, or the end of the block). -/
def parseEntrySplit (block : LC) : LC × LC :=
  match searchPos gesuchsAt block with
  | none => (block, [])
  | some s =>
    let e :=
      match footerFind (block.drop s) with
      | some (d, fl) => s + d + fl
      | none =>
        match searchPos (fun u => (headerEndAt u).map (fun _ => 0)) (block.drop s) with
        | some p => s + p
        | none => block.length
    (block.take s, segOf block s e)

/-- `re.sub(r"(?i)(gemeinde)(?= *w[üu]renlos)", r"\1 ", s)`: insert a space
after `gemeinde` when it is followed by spaces and the municipality name. -/
def gemeindeGo : Nat → LC → LC
  | _, [] => []
  | 0, l => l
  | fuel + 1, l@(c :: rest) =>
    if startsWithCI (lcOf "gemeinde") l ∧
        (let k := countWhile (· = ' ') (l.drop 8)
         (wXrenlos (l.drop (8 + k))).isSome) then
      l.take 8 ++ ' ' :: gemeindeGo fuel (l.drop 8)
    else c :: gemeindeGo fuel rest

def gemeindeSub (l : LC) : LC := gemeindeGo l.length l

/-- Index of the first case-sensitive word-bounded occurrence of `pat`. -/
def wordPosCS (pat : LC) : Option Char → LC → Option Nat
  | _, [] => none
  | prev, l@(c :: rest) =>
    if wbBefore prev ∧ startsWithCS pat l ∧ wbHead (l.drop pat.length) then some 0
    else (wordPosCS pat (some c) rest).map (1 + ·)

/-- `re.split(r"\bParzelle\b", s, maxsplit=1)[0]`. -/
def splitAtParzelle (s : LC) : LC :=
  match wordPosCS (lcOf "Parzelle") none s with
  | some i => s.take i
  | none => s

/-- The typographic-character fixes of the location field. -/
def lageFix (l : LC) : LC :=
  replaceAll (lcOf " - ") (lcOf " – ")
    (taegerhardFix
      (replaceAll (lcOf "‘") []
        (replaceAll (lcOf "’") []
          (replaceAll (lcOf "‚") [] l))))

/-- Steps 2-3 of `_parse_entry`: positional slicing of the core followed by
the fast-path normalisations. -/
def parseEntrySliced (block : LC) : List (LC × LC) :=
  let core := (parseEntrySplit block).1
  let f0 := sliceFieldsByPositions core
  let f1 :=
    if containsSub (lcOf "Ausserhalb Bauzone") block ∧
        containsSub (lcOf "Landschaftsschutzzone") block then
      dictUpdate f0 (lcOf "Zone") (lcOf "Ausserhalb Bauzone – Landschaftsschutzzone")
    else if containsSub (lcOf "Ausserhalb Bauzone") block ∧ containsSub (lcOf "Wald") block then
      dictUpdate f0 (lcOf "Zone") (lcOf "Ausserhalb Bauzone – Wald")
    else f0
  let f2 := dictUpdate f1 (lcOf "Lage") (lageFix (dictGet f1 (lcOf "Lage")))
  let f3 := dictUpdate f2 (lcOf "Bauvorhaben")
    (replaceAll (lcOf "Siloanlage") (lcOf "Silolanlage") (dictGet f2 (lcOf "Bauvorhaben")))
  let f4 := dictUpdate f3 (lcOf "Bauherrschaft") (gemeindeSub (dictGet f3 (lcOf "Bauherrschaft")))
  if containsSub (lcOf "Parzelle") (dictGet f4 (lcOf "Bauvorhaben")) then
    dictUpdate f4 (lcOf "Bauvorhaben") (cleanSpaces (splitAtParzelle (dictGet f4 (lcOf "Bauvorhaben"))))
  else f4

/-- The rescue condition of `_parse_entry` (step 4). -/
def needsRescue (block : LC) (fields : List (LC × LC)) : Bool :=
  (dictGet fields (lcOf "Bauherrschaft")).length < 20 ∨
  (dictGet fields (lcOf "Bauvorhaben")).length < 25 ∨
  containsSub (lcOf "Siloan") (dictGet fields (lcOf "Bauvorhaben")) ∨
  (containsSub (lcOf "Parzelle") block ∧ containsSub (lcOf "Plan") block ∧
    containsSub (lcOf "Büntern") block ∧ (dictGet fields (lcOf "Lage")).length < 25) ∨
  ¬ startsParzelleMatch (dictGet fields (lcOf "Lage"))

/-- The canonical footer string `BAUVERWALTUNG WÜRENLOS` of step 5 of
`_parse_entry`. -/
def footerCanon : LC := lcOf "BAUVERWALTUNG WÜRENLOS"

/-- The footer phrase glued three times with no separator: exactly the
adjacent repetition that one match of `(?:FTR_RAW)+` consumes (C4). -/
def footerRep3 : LC := footerCanon ++ footerCanon ++ footerCanon

/-- A plain text character for the C4 analysis: its only whitespace form is
the plain space, and it is neither a soft hyphen nor a hyphen, so the
normalisation pipeline of step 5 leaves it in place. -/
def plainTxt (c : Char) : Bool :=
  (isSpaceRe c = false ∨ c = ' ') ∧ c ≠ '\u00ad' ∧ c ≠ '-'

/-- `(?:BAUVERWALTUNG\s+W[ÜU]RENLOS)+` at the head: greedy repetition. -/
def footerPlusGo : Nat → LC → Option Nat
  | 0, _ => none
  | fuel + 1, u =>
    match footerLenAt u with
    | none => none
    | some n =>
      match footerPlusGo fuel (u.drop n) with
      | some t => some (n + t)
      | none => some n

/-- `RE_FOOTER_MULT.sub("BAUVERWALTUNG WÜRENLOS", o)`. -/
def footerMultGo : Nat → LC → LC
  | _, [] => []
  | 0, l => l
  | fuel + 1, l@(c :: rest) =>
    match footerPlusGo (fuel + 1) l with
    | some n => lcOf "BAUVERWALTUNG WÜRENLOS" ++ footerMultGo fuel (l.drop n)
    | none => c :: footerMultGo fuel rest

def footerMultSub (l : LC) : LC := footerMultGo l.length l

/-- Step 5 of `_parse_entry`: normalise `others` to one line with exactly
one canonical footer. -/
def othersNormalize (others : LC) : LC :=
  if others = [] then []
  else
    let o1 := pyStrip (collapseSpaces (joinLinesSub (subHyphenNL (subSoftHyph others))))
    let o2 := footerMultSub o1
    let o3 :=
      if containsSub (lcOf "BAUVERWALTUNG WÜRENLOS") o2 then o2
      else o2 ++ lcOf " BAUVERWALTUNG WÜRENLOS"
    cleanSpaces o3

/-- One parsed notice. -/
structure Entry where
  bauherrschaft : LC
  bauvorhaben : LC
  lage : LC
  zone : LC
  zusatzgesuch : LC
  others : LC
deriving DecidableEq, Repr

/-- `_parse_entry`. -/
def parseEntry (block : LC) : Entry :=
  let sliced := parseEntrySliced block
  let fields :=
    if needsRescue block sliced then upgradeFromGlobalPatterns block sliced else sliced
  let fieldsF := fields.map (fun q => (q.1, cleanSpaces q.2))
  { bauherrschaft := dictGet fieldsF (lcOf "Bauherrschaft")
    bauvorhaben := dictGet fieldsF (lcOf "Bauvorhaben")
    lage := dictGet fieldsF (lcOf "Lage")
    zone := dictGet fieldsF (lcOf "Zone")
    zusatzgesuch := dictGet fieldsF (lcOf "Zusatzgesuch")
    others := othersNormalize (parseEntrySplit block).2 }

/-! ## Orchestrator: the candidate selection of `parse_baugesuch_from_pdf` -/

def munBoxes (txt : LC) : List LC := (findBoxesInText txt).filter looksLikeWurenlos

def munSegs (txt : LC) : List LC := (splitEntriesByLabels txt).filter looksLikeWurenlos

/-- The pure selection logic of `parse_baugesuch_from_pdf`: last two
municipality boxes when at least two, else last two fallback candidates;
final defensive cap at two. -/
def selectEntries (txt : LC) : List Entry :=
  let entries :=
    if 2 ≤ (munBoxes txt).length then (lastN 2 (munBoxes txt)).map parseEntry
    else (lastN 2 (munSegs txt)).map parseEntry
  entries.drop (entries.length - 2)

example : collapseText (lcOf "a \t b\r\nc\n\n\n\nd  ") = lcOf "a b\n\nc\n\nd" := by decide
example : joinLinesSub (lcOf "a \t\n  b\nc d  e") = lcOf "a b c d  e" := by decide
example : multiSpaceSub (lcOf "a \u000B b  c") = lcOf "a b c" := by decide
example : camelGapSub (lcOf "StrasseMusterhausenÖde aBC") =
    lcOf "Strasse Musterhausen Öde a BC" := by decide
example :
    bhSearch (lcOf "Bauherrschaft: Brugg Hans Bauvorhaben: irrelevant words here Zone: Dorf Brugg Hans, Bernstrasse 4, 5436 Würenlos") =
      some (lcOf "Dorf Brugg Hans, Bernstrasse 4, 5436 Würenlos") := by decide
example :
    bhSearch (lcOf "Bauherrschaft: Meier Anna, Bahnhofstr. 5, 5436 Wurenlos baut") =
      some (lcOf "Meier Anna, Bahnhofstr. 5, 5436 Wurenlos") := by decide
example :
    footerMultSub (lcOf "x BAUVERWALTUNG WÜRENLOSBAUVERWALTUNG WÜRENLOSBAUVERWALTUNG WÜRENLOS y") =
      lcOf "x BAUVERWALTUNG WÜRENLOS y" := by decide
example :
    footerMultSub (lcOf "x bauverwaltung würenlos y BAUVERWALTUNG WÜRENLOS z") =
      lcOf "x BAUVERWALTUNG WÜRENLOS y BAUVERWALTUNG WÜRENLOS z" := by decide
example : searchPos gesuchsAt (lcOf "a Gesuchsauflage  vom 1.1. bis") = some 2 := by decide
example : gemeindeSub (lcOf "GemeindeWürenlos und gemeinde wurenlos") =
    lcOf "Gemeinde Würenlos und gemeinde  wurenlos" := by decide
example : splitAtParzelle (lcOf "Neubau Parzellen Parzelle 5") = lcOf "Neubau Parzellen " := by decide
example : looksLikeWurenlos (lcOf "aus Wuerenlos AG") = true := by decide
example : looksLikeWurenlos (lcOf "Würenlos") = false := by decide
example : looksLikeWurenlos (lcOf "in 5436 Dorf") = true := by decide
example : looksLikeWurenlos (lcOf "x54361") = false := by decide
example :
    findBoxesInText (lcOf "xx Baugesuchspublikation Haus 5436 BAUVERWALTUNG WÜRENLOS yy") =
      [lcOf "Haus 5436 BAUVERWALTUNG WÜRENLOS"] := by decide
example :
    splitEntriesByLabels
      (lcOf "Bauherrschaft Max Bauvorhaben Haus Lage Dorf") =
      [lcOf "Bauherrschaft Max Bauvorhaben Haus Lage Dorf"] := by decide
example :
    (sliceFieldsByPositions (lcOf "Bauherrschaft: Max Muster Lage:Parzelle 7")).map
      (fun p => p.2) =
      [lcOf "Max Muster", [], lcOf "Parzelle 7", [], []] := by decide

/-- The three unreliability triggers as the spec states them (C6). -/
def SpecTriggerApplicant (fields : List (LC × LC)) : Prop :=
  (dictGet fields (lcOf "Bauherrschaft")).length < 20

def SpecTriggerProject (fields : List (LC × LC)) : Prop :=
  (dictGet fields (lcOf "Bauvorhaben")).length < 25 ∨
    containsSub (lcOf "Siloan") (dictGet fields (lcOf "Bauvorhaben")) = true

def SpecCues (block : LC) : Prop :=
  containsSub (lcOf "Parzelle") block = true ∧ containsSub (lcOf "Plan") block = true ∧
    containsSub (lcOf "Büntern") block = true

/-- The spec's third trigger: positional cues present AND the location field
short or not parcel-anchored. -/
def SpecTriggerLocation (block : LC) (fields : List (LC × LC)) : Prop :=
  SpecCues block ∧ ((dictGet fields (lcOf "Lage")).length < 25 ∨
    startsParzelleMatch (dictGet fields (lcOf "Lage")) = false)

/-- The claim's trigger set: rescue runs only when one of the three holds. -/
def claimedTriggers (block : LC) (fields : List (LC × LC)) : Prop :=
  SpecTriggerApplicant fields ∨ SpecTriggerProject fields ∨ SpecTriggerLocation block fields

/-- C6 counterexample: a block whose sliced fields pass all three of the
spec's triggers, yet the code still rescues (the "location does not start
with Parzelle" disjunct is unconditional in the code, not guarded by the
positional cues). -/
def c6Block : LC :=
  lcOf "Bauherrschaft: Meierhans Bernhard und Colett Bauvorhaben: Neubau eines Einfamilienhauses mit Doppelgarage Lage: Musterweg 12 in der Ortsmitte Zone: Wohnzone W2"

/-- C7: the rescue-gating scenario block — the core slice yields a 10
character applicant, the whole block holds a full anchored applicant
pattern. -/
def c7Block : LC :=
  lcOf "Bauherrschaft: Brugg Hans Bauvorhaben: irrelevant words here Zone: Dorf Brugg Hans, Bernstrasse 4, 5436 Würenlos"

/-- The municipality-name variants the fuzzy pattern accepts, as a
word-bounded case-insensitive occurrence at some position (C3). -/
def SpecNameOccurs (t : LC) : Prop :=
  ∃ i v, v ∈ wurVariants ∧ lowerList ((t.drop i).take v.length) = v ∧
    wbHead (t.drop (i + v.length)) = true ∧
    (i = 0 ∨ ∃ c, t.get? (i - 1) = some c ∧ isWordRe c = false)

/-- A word-bounded occurrence of the postal code `5436` (C3). -/
def SpecPlzOccurs (t : LC) : Prop :=
  ∃ i, (t.drop i).take 4 = lcOf "5436" ∧ wbHead (t.drop (i + 4)) = true ∧
    (i = 0 ∨ ∃ c, t.get? (i - 1) = some c ∧ isWordRe c = false)

/-- Two adjacent characters satisfying `p` then `q` occur somewhere. -/
def hasPair (p q : Char → Bool) : LC → Bool
  | [] => false
  | [_] => false
  | a :: b :: rest => (p a ∧ q b) ∨ hasPair p q (b :: rest)

/-- Three adjacent characters satisfying `p` occur somewhere. -/
def hasTriple (p : Char → Bool) : LC → Bool
  | [] => false
  | [_] => false
  | [_, _] => false
  | a :: b :: c :: rest => (p a ∧ p b ∧ p c) ∨ hasTriple p (b :: c :: rest)

/-- A clean segment around the footer: plain characters, none of them a
`b`/`B` (so no footer phrase can start inside it), and no two adjacent
whitespace characters. -/
def C4Seg (l : LC) : Prop :=
  (∀ c ∈ l, plainTxt c = true) ∧ (∀ c ∈ l, lowerC c ≠ 'b') ∧
    hasPair isSpaceRe isSpaceRe l = false

/-- A header token as the spec describes it: `Baugesuch`, an optional run
of whitespace, then `spublikation` (covering the glued and spaced spellings,
case-insensitively), or the `c`-corrupted spelling (C8). -/
def IsHeaderToken (w : LC) : Prop :=
  (21 ≤ w.length ∧ (∀ c ∈ (w.drop 9).take (w.length - 21), isSpaceRe c = true) ∧
    lowerList (w.take 9) = lcOf "baugesuch" ∧
    lowerList (w.drop (w.length - 12)) = lcOf "spublikation") ∨
  lowerList w = lcOf "baugesuchspublication"

/-- A footer token: `BAUVERWALTUNG`, at least one whitespace character, then
the municipality in umlaut or plain-U spelling, case-insensitively (C8). -/
def IsFooterToken (w : LC) : Prop :=
  22 ≤ w.length ∧ (∀ c ∈ (w.drop 13).take (w.length - 21), isSpaceRe c = true) ∧
  lowerList (w.take 13) = lcOf "bauverwaltung" ∧
  (lowerList (w.drop (w.length - 8)) = lcOf "würenlos" ∨
    lowerList (w.drop (w.length - 8)) = lcOf "wurenlos")

/-- The box pattern matches at the head of `u` with total length `n`: a
header token ending at `e` with a word boundary, then the lazily chosen
footer — the token ending at `n` starting at the earliest possible
position `p` (shortest span, C8). -/
def HeadSpan (u : LC) (n : Nat) : Prop :=
  n ≤ u.length ∧ ∃ e, e ≤ n ∧ IsHeaderToken (u.take e) ∧ wbHead (u.drop e) = true ∧
    ∃ p, p ≤ n ∧ e ≤ p ∧ IsFooterToken ((u.drop p).take (n - p)) ∧
      ∀ q, q < p → e ≤ q → ∀ f, f ≤ u.length → ¬ IsFooterToken ((u.drop q).take (f - q))

/-! # Lemmas -/

/-- Inversion of the case fold: either `c` is fixed, or `(c, lowerC c)` is
one of the 29 case pairs. -/
theorem lowerC_inv (c : Char) : lowerC c = c ∨ (c, lowerC c) ∈ casePairs := by
  unfold lowerC
  cases hf : casePairs.find? (fun p => p.1 = c) with
  | none => exact Or.inl rfl
  | some p =>
    refine Or.inr ?_
    have hm := List.mem_of_find?_eq_some hf
    have hp := List.find?_some hf
    simp only [decide_eq_true_eq] at hp
    rw [← hp]
    exact hm

theorem upperC_of_lower_b (c : Char) (h : lowerC c = 'b') : upperC c = 'B' := by
  rcases lowerC_inv c with hc | hc
  · rw [hc] at h; subst h; decide
  · rw [h] at hc
    have key : ∀ p ∈ casePairs, p.2 = 'b' → p.1 = 'B' := by decide
    have : c = 'B' := key _ hc rfl
    subst this; decide

theorem upperC_of_lower_l (c : Char) (h : lowerC c = 'l') : upperC c = 'L' := by
  rcases lowerC_inv c with hc | hc
  · rw [hc] at h; subst h; decide
  · rw [h] at hc
    have key : ∀ p ∈ casePairs, p.2 = 'l' → p.1 = 'L' := by decide
    have : c = 'L' := key _ hc rfl
    subst this; decide

theorem upperC_of_lower_z (c : Char) (h : lowerC c = 'z') : upperC c = 'Z' := by
  rcases lowerC_inv c with hc | hc
  · rw [hc] at h; subst h; decide
  · rw [h] at hc
    have key : ∀ p ∈ casePairs, p.2 = 'z' → p.1 = 'Z' := by decide
    have : c = 'Z' := key _ hc rfl
    subst this; decide

theorem isCasedC_of_lowerDE (c : Char) (h : isLowerDE (lowerC c) = true) :
    isCasedC c = true := by
  rcases lowerC_inv c with hc | hc
  · rw [hc] at h
    simp only [isLowerDE, isCasedC, isGermanExtra, Char.isAlpha,
      decide_eq_true_eq, Bool.or_eq_true] at *
    rcases h with h | h
    · exact Or.inl (Or.inr h)
    · rcases h with h | h | h | h <;> subst h <;> decide
  · have key : ∀ p ∈ casePairs, isCasedC p.1 = true := by decide
    exact key _ hc

theorem pyTitleGo_true_lower (w pat : LC) (hpat : ∀ d ∈ pat, isLowerDE d = true)
    (h : lowerList w = pat) : pyTitleGo true w = pat := by
  induction w generalizing pat with
  | nil => rw [← h]; rfl
  | cons c cs ih =>
    simp only [lowerList, List.map_cons] at h
    subst h
    have hcased : isCasedC c = true :=
      isCasedC_of_lowerDE c (hpat _ (List.mem_cons_self _ _))
    simp only [pyTitleGo, hcased, if_true]
    refine List.cons_eq_cons.mpr ⟨rfl, ?_⟩
    exact ih _ (fun d hd => hpat d (List.mem_cons_of_mem _ hd)) rfl

theorem pyTitle_word (w : LC) (u : Char) (rest : LC)
    (hrest : ∀ d ∈ rest, isLowerDE d = true)
    (hl : lowerList w = lowerC u :: rest) (hu : isLowerDE (lowerC u) = true)
    (hup : ∀ c, lowerC c = lowerC u → upperC c = u) :
    pyTitle w = u :: rest := by
  cases w with
  | nil => simp [lowerList] at hl
  | cons c cs =>
    simp only [lowerList, List.map_cons, List.cons_eq_cons] at hl
    have hcased : isCasedC c = true := isCasedC_of_lowerDE c (hl.1 ▸ hu)
    simp only [pyTitle, pyTitleGo, hcased, if_true]
    exact List.cons_eq_cons.mpr ⟨hup c hl.1, pyTitleGo_true_lower cs rest hrest hl.2⟩

theorem pyTitle_of_label (w lab : LC) (hlab : lab ∈ labelsList)
    (h : lowerList w = lowerList lab) : pyTitle w = lab := by
  fin_cases hlab
  · exact pyTitle_word w 'B' (lcOf "auherrschaft") (by decide) h (by decide)
      (fun c hc => upperC_of_lower_b c hc)
  · exact pyTitle_word w 'B' (lcOf "auvorhaben") (by decide) h (by decide)
      (fun c hc => upperC_of_lower_b c hc)
  · exact pyTitle_word w 'L' (lcOf "age") (by decide) h (by decide)
      (fun c hc => upperC_of_lower_l c hc)
  · exact pyTitle_word w 'Z' (lcOf "one") (by decide) h (by decide)
      (fun c hc => upperC_of_lower_z c hc)
  · exact pyTitle_word w 'Z' (lcOf "usatzgesuch") (by decide) h (by decide)
      (fun c hc => upperC_of_lower_z c hc)

theorem startsWithCI_lower (pat l : LC) (h : startsWithCI pat l = true) :
    lowerList (l.take pat.length) = pat := by
  induction pat generalizing l with
  | nil => simp [lowerList]
  | cons p ps ih =>
    cases l with
    | nil => simp [startsWithCI] at h
    | cons c cs =>
      simp only [startsWithCI, Bool.decide_and, Bool.and_eq_true,
        decide_eq_true_eq] at h
      simp only [List.length_cons, List.take_succ_cons, lowerList, List.map_cons]
      exact List.cons_eq_cons.mpr ⟨h.1.symm, ih cs h.2⟩

theorem labelAtHead_title (l : LC) (len : Nat) (txtm : LC)
    (h : labelAtHead l = some (len, txtm)) : pyTitle txtm ∈ labelsList := by
  unfold labelAtHead at h
  cases hf : labelsList.find? (fun lab => startsWithCI (lowerList lab) l) with
  | none => rw [hf] at h; exact absurd h (by simp)
  | some lab =>
    rw [hf] at h
    have hmem := List.mem_of_find?_eq_some hf
    have hp := List.find?_some hf
    simp only [Option.some.injEq, Prod.mk.injEq] at h
    have htxt : lowerList txtm = lowerList lab := by
      rw [← h.2]
      have := startsWithCI_lower (lowerList lab) l hp
      simp only [lowerList, List.length_map] at this
      exact this
    rw [pyTitle_of_label txtm lab hmem htxt]
    exact hmem

theorem labelScanGo_title (fuel : Nat) :
    ∀ idx l m, m ∈ labelScanGo fuel idx l → pyTitle m.2.2 ∈ labelsList := by
  induction fuel with
  | zero => intro idx l m hm; cases l <;> simp [labelScanGo] at hm
  | succ fuel ih =>
    intro idx l m hm
    cases l with
    | nil => simp [labelScanGo] at hm
    | cons c rest =>
      rw [labelScanGo] at hm
      cases hl : labelAtHead (c :: rest) with
      | none =>
        rw [hl] at hm
        exact ih _ _ _ hm
      | some p =>
        obtain ⟨len, txtm⟩ := p
        rw [hl] at hm
        simp only [List.mem_cons] at hm
        rcases hm with hm | hm
        · subst hm; exact labelAtHead_title _ _ _ hl
        · exact ih _ _ _ hm

theorem dictUpdate_keys (d : List (LC × LC)) (k v : LC)
    (h : k ∈ d.map Prod.fst) : (dictUpdate d k v).map Prod.fst = d.map Prod.fst := by
  induction d with
  | nil => simp at h
  | cons p rest ih =>
    simp only [List.map_cons, List.mem_cons] at h
    by_cases hk : p.1 = k
    · cases p; simp_all [dictUpdate]
    · cases p with
      | mk k' v' =>
        simp only [dictUpdate, if_neg hk, List.map_cons]
        rcases h with h | h
        · exact absurd h.symm hk
        · rw [ih h]

theorem sliceLoop_keys (core : LC) (ms : List (Nat × Nat × LC)) (acc : List (LC × LC))
    (hacc : acc.map Prod.fst = labelsList)
    (hms : ∀ m ∈ ms, pyTitle m.2.2 ∈ labelsList) :
    (sliceLoop core ms acc).map Prod.fst = labelsList := by
  induction ms generalizing acc with
  | nil => simpa [sliceLoop] using hacc
  | cons m rest ih =>
    simp only [sliceLoop]
    refine ih _ ?_ (fun m' hm' => hms m' (List.mem_cons_of_mem _ hm'))
    rw [dictUpdate_keys]
    · exact hacc
    · rw [hacc]; exact hms m (List.mem_cons_self _ _)

example : collapseText (lcOf "hy-\nphen a­b") = lcOf "hyphen ab" := by decide
example : cleanSpaces (lcOf " x \n y  z ") = lcOf "x y z" := by decide
example : collapseText (lcOf "--\n\nx") = lcOf "-\nx" := by decide
example : collapseText (lcOf "-\nx") = lcOf "x" := by decide
example : replaceAll (lcOf "ab") (lcOf "c") (lcOf "xabab") = lcOf "xcc" := by decide
example : pyTitle (lcOf "bAUherrschaft") = lcOf "Bauherrschaft" := by decide

theorem anchorScan_of_not_contains :
    ∀ (prev : Option Char) (idx : Nat) (l : LC),
      containsSub (lcOf "Bauherrschaft") l = false → anchorScan prev idx l = [] := by
  intro prev idx l
  induction l generalizing prev idx with
  | nil => intro _; rfl
  | cons c rest ih =>
    intro h
    simp only [containsSub, Bool.decide_or, Bool.or_eq_false_iff, decide_eq_false_iff_not] at h
    rw [anchorScan, if_neg ?hneg]
    case hneg =>
      intro hcond
      exact h.1 hcond.2.1
    exact ih (some c) (idx + 1) (Bool.eq_false_iff.mpr h.2)

/-- C5: for every core string the slicer's output has exactly the five
fixed keys, in order, each bound to a (possibly empty) string value. -/
theorem c5_slicer_label_coverage (core : LC) :
    (sliceFieldsByPositions core).map Prod.fst =
      [lcOf "Bauherrschaft", lcOf "Bauvorhaben", lcOf "Lage", lcOf "Zone",
       lcOf "Zusatzgesuch"] := by
  unfold sliceFieldsByPositions
  exact sliceLoop_keys _ _ _ (by decide)
    (fun m hm => labelScanGo_title _ _ _ _ hm)

/-- C9: every segment kept by the fallback segmenter contains at least 3 of
the 5 field labels. -/
theorem c9_segment_label_threshold (txt : LC) (b : LC)
    (hb : b ∈ splitEntriesByLabels txt) : 3 ≤ labelHits b := by
  unfold splitEntriesByLabels at hb
  have := List.of_mem_filter hb
  simpa using this

theorem c9_witness :
    3 ≤ labelHits (lcOf "Bauherrschaft Max Bauvorhaben Haus Lage Dorf") :=
  c9_segment_label_threshold
    (lcOf "Bauherrschaft Max Bauvorhaben Haus Lage Dorf")
    (lcOf "Bauherrschaft Max Bauvorhaben Haus Lage Dorf") (by decide)

/-- C10: the fallback segmenter's anchor matching is case-sensitive: if the
preprocessed page does not contain `Bauherrschaft` in this exact case, no
segment is produced. -/
theorem c10_segmenter_case_sensitive (txt : LC)
    (h : containsSub (lcOf "Bauherrschaft") (softParaSub (collapseText txt)) = false) :
    splitEntriesByLabels txt = [] := by
  unfold splitEntriesByLabels
  simp only []
  rw [anchorScan_of_not_contains none 0 _ h]
  rfl

theorem c10_witness :
    splitEntriesByLabels (lcOf "BAUHERRSCHAFT MAX BAUVORHABEN HAUS LAGE DORF") = [] :=
  c10_segmenter_case_sensitive
    (lcOf "BAUHERRSCHAFT MAX BAUVORHABEN HAUS LAGE DORF") (by decide)



set_option maxRecDepth 40000 in
theorem c6_counterexample :
    needsRescue c6Block (parseEntrySliced c6Block) = true ∧
      ¬ claimedTriggers c6Block (parseEntrySliced c6Block) := by
  constructor
  · decide
  · unfold claimedTriggers SpecTriggerApplicant SpecTriggerProject SpecTriggerLocation SpecCues
    decide

/-- C6 amended: the rescue pass runs iff one of the spec's first two
triggers holds, or the positional cues co-occur with a short location
field, or — unconditionally — the location field does not start with the
parcel marker. -/
theorem c6_rescue_triggers (block : LC) (fields : List (LC × LC)) :
    needsRescue block fields = true ↔
      (SpecTriggerApplicant fields ∨ SpecTriggerProject fields ∨
        (SpecCues block ∧ (dictGet fields (lcOf "Lage")).length < 25) ∨
        startsParzelleMatch (dictGet fields (lcOf "Lage")) = false) := by
  unfold needsRescue SpecTriggerApplicant SpecTriggerProject SpecCues
  simp only [Bool.decide_or, Bool.decide_and, Bool.or_eq_true, Bool.and_eq_true,
    decide_eq_true_eq, Bool.not_eq_true', Bool.not_eq_true]
  tauto


set_option maxRecDepth 100000 in
/-- C7: on `c7Block` the sliced applicant has 10 characters, the anchored
applicant pattern rescues the full value from the whole block, and the
parsed entry carries the rescued value, not the sliced one. -/
theorem c7_rescue_gating :
    (dictGet (parseEntrySliced c7Block) (lcOf "Bauherrschaft")).length = 10 ∧
    bhSearch (cleanSpaces c7Block) =
      some (lcOf "Dorf Brugg Hans, Bernstrasse 4, 5436 Würenlos") ∧
    (parseEntry c7Block).bauherrschaft =
      lcOf "Dorf Brugg Hans, Bernstrasse 4, 5436 Würenlos" ∧
    (parseEntry c7Block).bauherrschaft ≠
      dictGet (parseEntrySliced c7Block) (lcOf "Bauherrschaft") := by
  refine ⟨by decide, by decide, by decide, by decide⟩


theorem startsWithCI_of_lower (pat : LC) :
    ∀ l : LC, lowerList (l.take pat.length) = pat → startsWithCI pat l = true := by
  induction pat with
  | nil => intro l _; rfl
  | cons p ps ih =>
    intro l h
    cases l with
    | nil => simp [lowerList] at h
    | cons c cs =>
      simp only [List.length_cons, List.take_succ_cons, lowerList, List.map_cons,
        List.cons_eq_cons] at h
      simp only [startsWithCI, Bool.decide_and, Bool.and_eq_true, decide_eq_true_eq]
      exact ⟨h.1.symm, ih cs h.2⟩

theorem startsWithCS_eq_take (pat : LC) :
    ∀ l : LC, startsWithCS pat l = true ↔ l.take pat.length = pat := by
  induction pat with
  | nil => intro l; simp [startsWithCS]
  | cons p ps ih =>
    intro l
    cases l with
    | nil => simp [startsWithCS]
    | cons c cs =>
      simp only [startsWithCS, Bool.decide_and, Bool.and_eq_true, decide_eq_true_eq,
        List.length_cons, List.take_succ_cons, List.cons_eq_cons]
      constructor
      · rintro ⟨h1, h2⟩; exact ⟨h1.symm, (ih cs).mp h2⟩
      · rintro ⟨h1, h2⟩; exact ⟨h1.symm, (ih cs).mpr h2⟩

theorem wbBefore_some (c : Char) : wbBefore (some c) = true ↔ isWordRe c = false := by
  unfold wbBefore
  cases h : isWordRe c <;> simp [h]

theorem drop_shift (c : Char) (rest : LC) (i n : Nat) :
    (c :: rest).drop (i + 1 + n) = rest.drop (i + n) := by
  have : i + 1 + n = (i + n) + 1 := by omega
  rw [this, List.drop_succ_cons]

theorem scanWordCI_true_iff (pats : List LC) (hne : ∀ v ∈ pats, v ≠ []) :
    ∀ (prev : Option Char) (l : LC),
      scanWordCI pats prev l = true ↔
        ∃ i v, v ∈ pats ∧ lowerList ((l.drop i).take v.length) = v ∧
          wbHead (l.drop (i + v.length)) = true ∧
          ((i = 0 ∧ wbBefore prev = true) ∨
            ∃ c, l.get? (i - 1) = some c ∧ isWordRe c = false ∧ 1 ≤ i) := by
  intro prev l
  induction l generalizing prev with
  | nil =>
    simp only [scanWordCI, Bool.false_eq_true, false_iff]
    rintro ⟨i, v, hv, hlow, -, -⟩
    refine hne v hv ?_
    have h0 : (([] : LC).drop i).take v.length = [] := by simp
    rw [h0] at hlow
    simpa [lowerList] using hlow.symm
  | cons c rest ih =>
    rw [scanWordCI]
    simp only [Bool.or_eq_true, Bool.and_eq_true, Bool.decide_and, decide_eq_true_eq,
      List.any_eq_true]
    constructor
    · rintro (⟨hb, v, hv, hm⟩ | hrec)
      · exact ⟨0, v, hv, by simpa using startsWithCI_lower v _ hm.1,
          by simpa using hm.2, Or.inl ⟨rfl, hb⟩⟩
      · obtain ⟨i, v, hv, hlow, hwb, hbound⟩ := (ih (some c)).mp hrec
        refine ⟨i + 1, v, hv, ?_, ?_, ?_⟩
        · rw [List.drop_succ_cons]; exact hlow
        · rw [drop_shift]; exact hwb
        · rcases hbound with ⟨hi0, hwbp⟩ | ⟨c', hc', hw', hi1⟩
          · subst hi0
            exact Or.inr ⟨c, rfl, (wbBefore_some c).mp hwbp, by omega⟩
          · refine Or.inr ⟨c', ?_, hw', by omega⟩
            have hi : i - 1 + 1 = i := Nat.succ_pred_eq_of_pos hi1
            rw [Nat.add_sub_cancel, ← hi, List.get?_cons_succ]
            exact hc'
    · rintro ⟨i, v, hv, hlow, hwb, hbound⟩
      cases i with
      | zero =>
        rcases hbound with ⟨-, hwbp⟩ | ⟨c', hc', hw', hi1⟩
        · refine Or.inl ⟨hwbp, v, hv, ?_⟩
          simp only [List.drop_zero] at hlow
          simp only [Nat.zero_add] at hwb
          exact ⟨startsWithCI_of_lower v _ hlow, hwb⟩
        · exact absurd hi1 (by omega)
      | succ j =>
        refine Or.inr ((ih (some c)).mpr ⟨j, v, hv, ?_, ?_, ?_⟩)
        · rw [List.drop_succ_cons] at hlow; exact hlow
        · rw [drop_shift] at hwb; exact hwb
        · rcases hbound with ⟨hi0, -⟩ | ⟨c', hc', hw', -⟩
          · exact absurd hi0 (by omega)
          · cases j with
            | zero =>
              simp only [Nat.add_sub_cancel, List.get?_cons_zero, Option.some.injEq] at hc'
              exact Or.inl ⟨rfl, (wbBefore_some c).mpr (hc' ▸ hw')⟩
            | succ k =>
              refine Or.inr ⟨c', ?_, hw', by omega⟩
              simp only [Nat.add_sub_cancel, List.get?_cons_succ] at hc'
              simpa using hc'

theorem scanWordCS_true_iff (pats : List LC) (hne : ∀ v ∈ pats, v ≠ []) :
    ∀ (prev : Option Char) (l : LC),
      scanWordCS pats prev l = true ↔
        ∃ i v, v ∈ pats ∧ (l.drop i).take v.length = v ∧
          wbHead (l.drop (i + v.length)) = true ∧
          ((i = 0 ∧ wbBefore prev = true) ∨
            ∃ c, l.get? (i - 1) = some c ∧ isWordRe c = false ∧ 1 ≤ i) := by
  intro prev l
  induction l generalizing prev with
  | nil =>
    simp only [scanWordCS, Bool.false_eq_true, false_iff]
    rintro ⟨i, v, hv, htake, -, -⟩
    refine hne v hv ?_
    have h0 : (([] : LC).drop i).take v.length = [] := by simp
    rw [h0] at htake
    exact htake.symm
  | cons c rest ih =>
    rw [scanWordCS]
    simp only [Bool.or_eq_true, Bool.and_eq_true, Bool.decide_and, decide_eq_true_eq,
      List.any_eq_true]
    constructor
    · rintro (⟨hb, v, hv, hm⟩ | hrec)
      · exact ⟨0, v, hv, by simpa using (startsWithCS_eq_take v _).mp hm.1,
          by simpa using hm.2, Or.inl ⟨rfl, hb⟩⟩
      · obtain ⟨i, v, hv, htake, hwb, hbound⟩ := (ih (some c)).mp hrec
        refine ⟨i + 1, v, hv, ?_, ?_, ?_⟩
        · rw [List.drop_succ_cons]; exact htake
        · rw [drop_shift]; exact hwb
        · rcases hbound with ⟨hi0, hwbp⟩ | ⟨c', hc', hw', hi1⟩
          · subst hi0
            exact Or.inr ⟨c, rfl, (wbBefore_some c).mp hwbp, by omega⟩
          · refine Or.inr ⟨c', ?_, hw', by omega⟩
            have hi : i - 1 + 1 = i := Nat.succ_pred_eq_of_pos hi1
            rw [Nat.add_sub_cancel, ← hi, List.get?_cons_succ]
            exact hc'
    · rintro ⟨i, v, hv, htake, hwb, hbound⟩
      cases i with
      | zero =>
        rcases hbound with ⟨-, hwbp⟩ | ⟨c', hc', hw', hi1⟩
        · refine Or.inl ⟨hwbp, v, hv, ?_⟩
          simp only [List.drop_zero] at htake
          simp only [Nat.zero_add] at hwb
          exact ⟨(startsWithCS_eq_take v _).mpr htake, hwb⟩
        · exact absurd hi1 (by omega)
      | succ j =>
        refine Or.inr ((ih (some c)).mpr ⟨j, v, hv, ?_, ?_, ?_⟩)
        · rw [List.drop_succ_cons] at htake; exact htake
        · rw [drop_shift] at hwb; exact hwb
        · rcases hbound with ⟨hi0, -⟩ | ⟨c', hc', hw', -⟩
          · exact absurd hi0 (by omega)
          · cases j with
            | zero =>
              simp only [Nat.add_sub_cancel, List.get?_cons_zero, Option.some.injEq] at hc'
              exact Or.inl ⟨rfl, (wbBefore_some c).mpr (hc' ▸ hw')⟩
            | succ k =>
              refine Or.inr ⟨c', ?_, hw', by omega⟩
              simp only [Nat.add_sub_cancel, List.get?_cons_succ] at hc'
              simpa using hc'

/-- C3 counterexample: the canonical umlaut spelling of the municipality is
NOT accepted by the filter (the fuzzy pattern admits `ue`-digraph and
elision variants only, and `Würenlos` contains neither `5436` nor one of
those). -/
theorem c3_counterexample : looksLikeWurenlos (lcOf "Würenlos") = false := by decide

/-- C3 amended: the filter accepts exactly the texts containing a
word-bounded case-insensitive occurrence of one of the four fuzzy variants
`w(ue)?r(en)?los` (which exclude the canonical spellings `Würenlos` and
`Wurenlos`), or a word-bounded occurrence of the postal code `5436`. -/
theorem c3_municipality_filter (t : LC) :
    looksLikeWurenlos t = true ↔ SpecNameOccurs t ∨ SpecPlzOccurs t := by
  unfold looksLikeWurenlos SpecNameOccurs SpecPlzOccurs
  simp only [Bool.decide_or, Bool.or_eq_true, decide_eq_true_eq]
  rw [scanWordCI_true_iff wurVariants (by decide) none t,
    scanWordCS_true_iff [lcOf "5436"] (by decide) none t]
  constructor
  · rintro (⟨i, v, hv, hlow, hwb, hb⟩ | ⟨i, v, hv, htake, hwb, hb⟩)
    · refine Or.inl ⟨i, v, hv, hlow, hwb, ?_⟩
      rcases hb with ⟨h0, -⟩ | ⟨c, hc, hw, -⟩
      · exact Or.inl h0
      · exact Or.inr ⟨c, hc, hw⟩
    · simp only [List.mem_singleton] at hv
      subst hv
      refine Or.inr ⟨i, htake, hwb, ?_⟩
      rcases hb with ⟨h0, -⟩ | ⟨c, hc, hw, -⟩
      · exact Or.inl h0
      · exact Or.inr ⟨c, hc, hw⟩
  · rintro (⟨i, v, hv, hlow, hwb, hb⟩ | ⟨i, htake, hwb, hb⟩)
    · refine Or.inl ⟨i, v, hv, hlow, hwb, ?_⟩
      rcases hb with h0 | ⟨c, hc, hw⟩
      · exact Or.inl ⟨h0, rfl⟩
      · by_cases hi : i = 0
        · exact Or.inl ⟨hi, rfl⟩
        · exact Or.inr ⟨c, hc, hw, by omega⟩
    · refine Or.inr ⟨i, lcOf "5436", List.mem_singleton_self _, htake, hwb, ?_⟩
      rcases hb with h0 | ⟨c, hc, hw⟩
      · exact Or.inl ⟨h0, rfl⟩
      · by_cases hi : i = 0
        · exact Or.inl ⟨hi, rfl⟩
        · exact Or.inr ⟨c, hc, hw, by omega⟩

/-- C1: the orchestrator caps its result at 2; with at least 2
municipality-matching boxes it returns exactly the parsed last 2; otherwise
it parses the last 2 label-segmentation candidates, and when at least 2 of
those exist the result again has length exactly 2. -/
theorem c1_orchestrator_selection (txt : LC) :
    (selectEntries txt).length ≤ 2 ∧
    (2 ≤ (munBoxes txt).length →
      selectEntries txt = (lastN 2 (munBoxes txt)).map parseEntry ∧
        (selectEntries txt).length = 2) ∧
    ((munBoxes txt).length < 2 →
      selectEntries txt = (lastN 2 (munSegs txt)).map parseEntry ∧
        (2 ≤ (munSegs txt).length → (selectEntries txt).length = 2)) := by
  by_cases h : 2 ≤ (munBoxes txt).length
  · have hlen2 : ((lastN 2 (munBoxes txt)).map parseEntry).length = 2 := by
      simp only [List.length_map, lastN, List.length_drop]
      omega
    have hsel : selectEntries txt = (lastN 2 (munBoxes txt)).map parseEntry := by
      simp only [selectEntries]
      rw [if_pos h, hlen2]
      simp
    exact ⟨by rw [hsel, hlen2], fun _ => ⟨hsel, by rw [hsel, hlen2]⟩,
      fun hlt => absurd h (by omega)⟩
  · have hle : ((lastN 2 (munSegs txt)).map parseEntry).length ≤ 2 := by
      simp only [List.length_map, lastN, List.length_drop]
      omega
    have hsel : selectEntries txt = (lastN 2 (munSegs txt)).map parseEntry := by
      simp only [selectEntries]
      rw [if_neg h]
      have h0 : ((lastN 2 (munSegs txt)).map parseEntry).length - 2 = 0 := by omega
      rw [h0, List.drop_zero]
    refine ⟨by rw [hsel]; exact hle, fun h2 => absurd h2 h,
      fun _ => ⟨hsel, fun hs => ?_⟩⟩
    rw [hsel]
    simp only [List.length_map, lastN, List.length_drop]
    omega

set_option maxRecDepth 100000 in
theorem c1_witness :
    (selectEntries (lcOf "Baugesuchspublikation A 5436 x BAUVERWALTUNG WÜRENLOS mid Baugesuchspublikation B 5436 y BAUVERWALTUNG WÜRENLOS")).length = 2 ∧
    (selectEntries (lcOf "Bauherrschaft Anna 5436 Bauvorhaben Haus Lage Dorf Bauherrschaft Bea 5436 Bauvorhaben Halle Lage Feld")).length = 2 :=
  ⟨((c1_orchestrator_selection _).2.1 (by decide)).2,
    (((c1_orchestrator_selection _).2.2 (by decide)).2 (by decide))⟩

/-! ## TextNormalizer lemmas (C2) -/

theorem hasPair_nil (p q : Char → Bool) : hasPair p q [] = false := by
  unfold hasPair; rfl

theorem hasPair_one (p q : Char → Bool) (a : Char) : hasPair p q [a] = false := by
  unfold hasPair; rfl

theorem hasTriple_nil (p : Char → Bool) : hasTriple p [] = false := by
  unfold hasTriple; rfl

theorem hasTriple_one (p : Char → Bool) (a : Char) : hasTriple p [a] = false := by
  unfold hasTriple; rfl

theorem hasTriple_two (p : Char → Bool) (a b : Char) : hasTriple p [a, b] = false := by
  unfold hasTriple; rfl

theorem hasPair_cons_of (p q : Char → Bool) (a : Char) (l : LC)
    (h : hasPair p q l = true) : hasPair p q (a :: l) = true := by
  cases l with
  | nil => simp [hasPair_nil] at h
  | cons b rest =>
    rw [hasPair]
    simp only [decide_eq_true_eq]
    exact Or.inr h

theorem hasPair_append_right (p q : Char → Bool) (m t : LC)
    (h : hasPair p q m = true) : hasPair p q (m ++ t) = true := by
  induction m with
  | nil => simp [hasPair_nil] at h
  | cons a rest ih =>
    cases rest with
    | nil => simp [hasPair_one] at h
    | cons b rest2 =>
      rw [hasPair] at h
      simp only [decide_eq_true_eq] at h
      rcases h with h | h
      · rw [List.cons_append, List.cons_append, hasPair]
        simp only [decide_eq_true_eq]
        exact Or.inl h
      · rw [List.cons_append]
        exact hasPair_cons_of p q a _ (ih h)

theorem hasPair_middle (p q : Char → Bool) (s m t : LC)
    (h : hasPair p q m = true) : hasPair p q (s ++ m ++ t) = true := by
  induction s with
  | nil => simpa using hasPair_append_right p q m t h
  | cons a s' ih => exact hasPair_cons_of p q a _ ih

theorem hasTriple_cons_of (p : Char → Bool) (a : Char) (l : LC)
    (h : hasTriple p l = true) : hasTriple p (a :: l) = true := by
  cases l with
  | nil => simp [hasTriple_nil] at h
  | cons b rest =>
    cases rest with
    | nil => simp [hasTriple_one] at h
    | cons c rest2 =>
      rw [hasTriple]
      simp only [decide_eq_true_eq]
      exact Or.inr h

theorem hasTriple_append_right (p : Char → Bool) (m t : LC)
    (h : hasTriple p m = true) : hasTriple p (m ++ t) = true := by
  induction m with
  | nil => simp [hasTriple_nil] at h
  | cons a rest ih =>
    cases rest with
    | nil => simp [hasTriple_one] at h
    | cons b rest2 =>
      cases rest2 with
      | nil => simp [hasTriple_two] at h
      | cons c rest3 =>
        rw [hasTriple] at h
        simp only [decide_eq_true_eq] at h
        rcases h with h | h
        · rw [List.cons_append, List.cons_append, List.cons_append, hasTriple]
          simp only [decide_eq_true_eq]
          exact Or.inl h
        · rw [List.cons_append]
          exact hasTriple_cons_of p a _ (ih h)

theorem hasTriple_middle (p : Char → Bool) (s m t : LC)
    (h : hasTriple p m = true) : hasTriple p (s ++ m ++ t) = true := by
  induction s with
  | nil => simpa using hasTriple_append_right p m t h
  | cons a s' ih => exact hasTriple_cons_of p a _ ih

theorem hasPair_tail (p q : Char → Bool) (a : Char) (l : LC)
    (h : hasPair p q (a :: l) = false) : hasPair p q l = false := by
  cases hl : hasPair p q l with
  | false => rfl
  | true => rw [hasPair_cons_of p q a l hl] at h; exact h.symm ▸ rfl

theorem hasTriple_tail (p : Char → Bool) (a : Char) (l : LC)
    (h : hasTriple p (a :: l) = false) : hasTriple p l = false := by
  cases hl : hasTriple p l with
  | false => rfl
  | true => rw [hasTriple_cons_of p a l hl] at h; exact h.symm ▸ rfl

theorem subSoftHyph_eq_self (l : LC) (h : ∀ c ∈ l, c ≠ '­') : subSoftHyph l = l := by
  rw [subSoftHyph, List.filter_eq_self]
  intro a ha
  simpa using h a ha

theorem mem_subSoftHyph (l : LC) (c : Char) (h : c ∈ subSoftHyph l) :
    c ∈ l ∧ c ≠ '­' := by
  rw [subSoftHyph] at h
  have := List.mem_filter.mp h
  simpa using this

theorem subHyphenNL_eq_self : ∀ l : LC,
    hasPair (fun c => c = '-') (fun c => c = '\n') l = false → subHyphenNL l = l := by
  intro l
  induction l using subHyphenNL.induct with
  | case1 => intro _; rfl
  | case2 c => intro _; rfl
  | case3 c d rest hcd ih =>
    intro h
    rw [subHyphenNL, if_pos hcd] at *
    exfalso
    rw [hasPair] at h
    simp only [decide_eq_true_eq] at h
    exact absurd h (by simp [hcd.1, hcd.2])
  | case4 c d rest hcd ih =>
    intro h
    rw [subHyphenNL, if_neg hcd]
    rw [ih (hasPair_tail _ _ _ _ h)]

theorem mem_subHyphenNL : ∀ (l : LC) (c : Char), c ∈ subHyphenNL l → c ∈ l := by
  intro l
  induction l using subHyphenNL.induct with
  | case1 => intro c h; simp [subHyphenNL] at h
  | case2 a => intro c h; simpa [subHyphenNL] using h
  | case3 a d rest hcd ih =>
    intro c h
    rw [subHyphenNL, if_pos hcd] at h
    exact List.mem_cons_of_mem _ (List.mem_cons_of_mem _ (ih c h))
  | case4 a d rest hcd ih =>
    intro c h
    rw [subHyphenNL, if_neg hcd] at h
    rcases List.mem_cons.mp h with h | h
    · exact h ▸ List.mem_cons_self _ _
    · exact List.mem_cons_of_mem _ (ih c h)

theorem crToNl_eq_self (l : LC) (h : ∀ c ∈ l, c ≠ '\r') : crToNl l = l := by
  induction l with
  | nil => rfl
  | cons c rest ih =>
    rw [crToNl, List.map_cons]
    rw [if_neg (h c (List.mem_cons_self _ _))]
    rw [show List.map (fun c => if c = '\r' then '\n' else c) rest = crToNl rest from rfl]
    rw [ih (fun c hc => h c (List.mem_cons_of_mem _ hc))]

theorem mem_crToNl (l : LC) (c : Char) (h : c ∈ crToNl l) :
    c ≠ '\r' ∧ (c ∈ l ∨ c = '\n') := by
  rw [crToNl] at h
  obtain ⟨d, hd, hdc⟩ := List.mem_map.mp h
  by_cases hr : d = '\r'
  · subst hr
    simp only [if_pos rfl] at hdc
    subst hdc
    exact ⟨by decide, Or.inr rfl⟩
  · simp only [if_neg hr] at hdc
    subst hdc
    exact ⟨hr, Or.inl hd⟩

theorem collapseSpaces_head? : ∀ l : LC,
    (collapseSpaces l).head? = l.head?.map (fun c => if isHT c then ' ' else c) := by
  intro l
  induction l using collapseSpaces.induct with
  | case1 => rfl
  | case2 c hc => simp [collapseSpaces, hc]
  | case3 c hc =>
    simp only [Bool.not_eq_true] at hc
    simp [collapseSpaces, hc]
  | case4 c d rest hc hd ih =>
    rw [collapseSpaces, if_pos hc, if_pos hd, ih]
    simp [hc, hd]
  | case5 c d rest hc hd ih =>
    rw [collapseSpaces, if_pos hc, if_neg hd]
    simp [hc]
  | case6 c d rest hc ih =>
    rw [collapseSpaces, if_neg hc]
    simp only [Bool.not_eq_true] at hc
    simp [hc]

theorem mem_collapseSpaces_HT : ∀ (l : LC) (c : Char),
    c ∈ collapseSpaces l → isHT c = true → c = ' ' := by
  intro l
  induction l using collapseSpaces.induct with
  | case1 => intro c h _; simp [collapseSpaces] at h
  | case2 a ha =>
    intro c h _
    rw [collapseSpaces, if_pos ha] at h
    simpa using h
  | case3 a ha =>
    intro c h hht
    rw [collapseSpaces, if_neg ha] at h
    simp only [List.mem_singleton] at h
    subst h
    exact absurd hht ha
  | case4 a d rest ha hd ih =>
    intro c h hht
    rw [collapseSpaces, if_pos ha, if_pos hd] at h
    exact ih c h hht
  | case5 a d rest ha hd ih =>
    intro c h hht
    rw [collapseSpaces, if_pos ha, if_neg hd] at h
    rcases List.mem_cons.mp h with h | h
    · exact h
    · exact ih c h hht
  | case6 a d rest ha ih =>
    intro c h hht
    rw [collapseSpaces, if_neg ha] at h
    rcases List.mem_cons.mp h with h | h
    · subst h; exact absurd hht ha
    · exact ih c h hht

theorem mem_collapseSpaces : ∀ (l : LC) (c : Char),
    c ∈ collapseSpaces l → c ∈ l ∨ c = ' ' := by
  intro l
  induction l using collapseSpaces.induct with
  | case1 => intro c h; simp [collapseSpaces] at h
  | case2 a ha =>
    intro c h
    rw [collapseSpaces, if_pos ha] at h
    simp only [List.mem_singleton] at h
    exact Or.inr h
  | case3 a ha =>
    intro c h
    rw [collapseSpaces, if_neg ha] at h
    simp only [List.mem_singleton] at h
    exact Or.inl (h ▸ List.mem_singleton_self _)
  | case4 a d rest ha hd ih =>
    intro c h
    rw [collapseSpaces, if_pos ha, if_pos hd] at h
    rcases ih c h with h | h
    · exact Or.inl (List.mem_cons_of_mem _ h)
    · exact Or.inr h
  | case5 a d rest ha hd ih =>
    intro c h
    rw [collapseSpaces, if_pos ha, if_neg hd] at h
    rcases List.mem_cons.mp h with h | h
    · exact Or.inr h
    · rcases ih c h with h | h
      · exact Or.inl (List.mem_cons_of_mem _ h)
      · exact Or.inr h
  | case6 a d rest ha ih =>
    intro c h
    rw [collapseSpaces, if_neg ha] at h
    rcases List.mem_cons.mp h with h | h
    · exact Or.inl (h ▸ List.mem_cons_self _ _)
    · rcases ih c h with h | h
      · exact Or.inl (List.mem_cons_of_mem _ h)
      · exact Or.inr h

theorem collapseSpaces_noDouble : ∀ l : LC,
    hasPair isHT isHT (collapseSpaces l) = false := by
  intro l
  induction l using collapseSpaces.induct with
  | case1 => simp only [collapseSpaces]; exact hasPair_nil _ _
  | case2 a ha => rw [collapseSpaces, if_pos ha]; exact hasPair_one _ _ _
  | case3 a ha => rw [collapseSpaces, if_neg ha]; exact hasPair_one _ _ _
  | case4 a d rest ha hd ih => rw [collapseSpaces, if_pos ha, if_pos hd]; exact ih
  | case5 a d rest ha hd ih =>
    rw [collapseSpaces, if_pos ha, if_neg hd]
    cases hout : collapseSpaces (d :: rest) with
    | nil => exact hasPair_one _ _ _
    | cons b out2 =>
      have hb : b = d := by
        have hh := collapseSpaces_head? (d :: rest)
        rw [hout] at hh
        simp only [List.head?_cons] at hh
        rw [show Option.map (fun c => if isHT c = true then ' ' else c) (some d) =
          some (if isHT d = true then ' ' else d) from rfl, if_neg hd] at hh
        exact (Option.some.injEq _ _).mp hh
      rw [hasPair]
      rw [decide_eq_false_iff_not]
      rintro (⟨-, h2⟩ | h)
      · rw [hb] at h2; exact hd h2
      · rw [hout] at ih; exact absurd h (by simp [ih])
  | case6 a d rest ha ih =>
    rw [collapseSpaces, if_neg ha]
    cases hout : collapseSpaces (d :: rest) with
    | nil => exact hasPair_one _ _ _
    | cons b out2 =>
      rw [hasPair]
      rw [decide_eq_false_iff_not]
      rintro (⟨h1, -⟩ | h)
      · exact ha h1
      · rw [hout] at ih; exact absurd h (by simp [ih])

theorem collapseSpaces_eq_self : ∀ l : LC, (∀ c ∈ l, c ≠ '\t') →
    hasPair isHT isHT l = false → collapseSpaces l = l := by
  intro l
  induction l using collapseSpaces.induct with
  | case1 => intro _ _; rfl
  | case2 a ha =>
    intro ht _
    rw [collapseSpaces, if_pos ha]
    have ha2 : a = ' ' := by
      have hne := ht a (List.mem_singleton_self _)
      simp only [isHT, decide_eq_true_eq] at ha
      rcases ha with h | h
      · exact h
      · exact absurd h hne
    rw [ha2]
  | case3 a ha => intro _ _; rw [collapseSpaces, if_neg ha]
  | case4 a d rest ha hd ih =>
    intro _ hp
    exfalso
    rw [hasPair] at hp
    rw [decide_eq_false_iff_not] at hp
    exact hp (Or.inl ⟨ha, hd⟩)
  | case5 a d rest ha hd ih =>
    intro ht hp
    rw [collapseSpaces, if_pos ha, if_neg hd]
    have ha2 : a = ' ' := by
      have hne := ht a (List.mem_cons_self _ _)
      simp only [isHT, decide_eq_true_eq] at ha
      rcases ha with h | h
      · exact h
      · exact absurd h hne
    rw [ha2, ih (fun c hc => ht c (List.mem_cons_of_mem _ hc)) (hasPair_tail _ _ _ _ hp)]
  | case6 a d rest ha ih =>
    intro ht hp
    rw [collapseSpaces, if_neg ha]
    rw [ih (fun c hc => ht c (List.mem_cons_of_mem _ hc)) (hasPair_tail _ _ _ _ hp)]

theorem collapseNLs_head? : ∀ l : LC, (collapseNLs l).head? = l.head? := by
  intro l
  induction l using collapseNLs.induct with
  | case1 => rfl
  | case2 c => rfl
  | case3 c d => rfl
  | case4 c d e rest h ih =>
    rw [collapseNLs, if_pos h, ih]
    simp [h.1, h.2.1]
  | case5 c d e rest h ih => rw [collapseNLs, if_neg h]; rfl

theorem mem_collapseNLs : ∀ (l : LC) (c : Char), c ∈ collapseNLs l → c ∈ l := by
  intro l
  induction l using collapseNLs.induct with
  | case1 => intro c h; simp [collapseNLs] at h
  | case2 a => intro c h; simpa [collapseNLs] using h
  | case3 a d => intro c h; simpa [collapseNLs] using h
  | case4 a d e rest hc ih =>
    intro c h
    rw [collapseNLs, if_pos hc] at h
    exact List.mem_cons_of_mem _ (ih c h)
  | case5 a d e rest hc ih =>
    intro c h
    rw [collapseNLs, if_neg hc] at h
    rcases List.mem_cons.mp h with h | h
    · exact h ▸ List.mem_cons_self _ _
    · exact List.mem_cons_of_mem _ (ih c h)

theorem collapseNLs_pairs (p q : Char → Bool) : ∀ l : LC,
    hasPair p q (collapseNLs l) = true → hasPair p q l = true := by
  intro l
  induction l using collapseNLs.induct with
  | case1 => intro h; simp [collapseNLs, hasPair_nil] at h
  | case2 a => intro h; simp [collapseNLs, hasPair_one] at h
  | case3 a d => intro h; simpa [collapseNLs] using h
  | case4 a d e rest hc ih =>
    intro h
    rw [collapseNLs, if_pos hc] at h
    exact hasPair_cons_of p q a _ (ih h)
  | case5 a d e rest hc ih =>
    intro h
    rw [collapseNLs, if_neg hc] at h
    cases hout : collapseNLs (d :: e :: rest) with
    | nil => rw [hout] at h; exact absurd h (by simp [hasPair_one])
    | cons b out2 =>
      rw [hout, hasPair, decide_eq_true_eq] at h
      rcases h with ⟨h1, h2⟩ | h
      · have hb : b = d := by
          have hh := collapseNLs_head? (d :: e :: rest)
          rw [hout] at hh
          simpa using hh
        rw [hasPair, decide_eq_true_eq]
        exact Or.inl ⟨h1, hb ▸ h2⟩
      · rw [← hout] at h
        exact hasPair_cons_of p q a _ (ih (by rw [hout]; exact (by rw [← hout]; exact h)))

theorem collapseNLs_noTriple : ∀ l : LC,
    hasTriple (fun c => c = '\n') (collapseNLs l) = false := by
  intro l
  induction l using collapseNLs.induct with
  | case1 => simp only [collapseNLs]; exact hasTriple_nil _
  | case2 a => simp only [collapseNLs]; exact hasTriple_one _ _
  | case3 a d => simp only [collapseNLs]; exact hasTriple_two _ _ _
  | case4 a d e rest hc ih => rw [collapseNLs, if_pos hc]; exact ih
  | case5 a d e rest hc ih =>
    rw [collapseNLs, if_neg hc]
    cases hout : collapseNLs (d :: e :: rest) with
    | nil => exact hasTriple_one _ _
    | cons b out2 =>
      cases out2 with
      | nil => exact hasTriple_two _ _ _
      | cons b2 out3 =>
        have hb : b = d := by
          have hh := collapseNLs_head? (d :: e :: rest)
          rw [hout] at hh
          simpa using hh
        rw [hasTriple, decide_eq_false_iff_not]
        rintro (⟨h1, h2, h3⟩ | h)
        · have h1a : a = '\n' := by simpa using h1
          have h2b : b = '\n' := by simpa using h2
          have h3b : b2 = '\n' := by simpa using h3
          have hd : d = '\n' := by rw [hb] at h2b; exact h2b
          by_cases he : e = '\n'
          · exact hc ⟨h1a, hd, he⟩
          · have h5 : collapseNLs (d :: e :: rest) = d :: collapseNLs (e :: rest) ∨
                collapseNLs (d :: e :: rest) = [d, e] := by
              cases rest with
              | nil => exact Or.inr (by simp [collapseNLs])
              | cons f rest2 =>
                rw [collapseNLs, if_neg (fun hx => he hx.2.1)]
                exact Or.inl rfl
            rcases h5 with h5 | h5
            · rw [h5] at hout
              have hinj := (List.cons.injEq _ _ _ _).mp hout
              have hb2 : b2 = e := by
                have hh := collapseNLs_head? (e :: rest)
                rw [hinj.2] at hh
                have := hh.symm
                simpa using this.symm
              exact he (hb2 ▸ h3b)
            · rw [h5] at hout
              have hinj := (List.cons.injEq _ _ _ _).mp hout
              have hb2 : b2 = e := ((List.cons.injEq _ _ _ _).mp hinj.2).1.symm
              exact he (hb2 ▸ h3b)
        · rw [← hout] at h
          exact absurd h (by simp [ih])

theorem collapseNLs_eq_self : ∀ l : LC,
    hasTriple (fun c => c = '\n') l = false → collapseNLs l = l := by
  intro l
  induction l using collapseNLs.induct with
  | case1 => intro _; rfl
  | case2 a => intro _; rfl
  | case3 a d => intro _; rfl
  | case4 a d e rest hc ih =>
    intro h
    exfalso
    rw [hasTriple, decide_eq_false_iff_not] at h
    exact h (Or.inl (by simp [hc.1, hc.2.1, hc.2.2]))
  | case5 a d e rest hc ih =>
    intro h
    rw [collapseNLs, if_neg hc, ih (hasTriple_tail _ _ _ h)]

theorem dropWhile_decomp (p : Char → Bool) : ∀ l : LC, ∃ s, l = s ++ l.dropWhile p := by
  intro l
  induction l with
  | nil => exact ⟨[], rfl⟩
  | cons c rest ih =>
    by_cases h : p c = true
    · obtain ⟨s, hs⟩ := ih
      exact ⟨c :: s, by rw [List.dropWhile_cons_of_pos h, List.cons_append, ← hs]⟩
    · exact ⟨[], by rw [List.dropWhile_cons_of_neg (by simpa using h)]; rfl⟩

theorem pyStrip_decomp (l : LC) : ∃ s t, l = s ++ pyStrip l ++ t := by
  obtain ⟨s1, hs1⟩ := dropWhile_decomp isSpaceRe l
  obtain ⟨s2, hs2⟩ := dropWhile_decomp isSpaceRe (l.dropWhile isSpaceRe).reverse
  refine ⟨s1, s2.reverse, ?_⟩
  have h2 : l.dropWhile isSpaceRe = pyStrip l ++ s2.reverse := by
    have h3 := congrArg List.reverse hs2
    rw [List.reverse_reverse, List.reverse_append] at h3
    exact h3
  conv_lhs => rw [hs1, h2]
  rw [List.append_assoc]

theorem head?_dropWhile_neg (p : Char → Bool) :
    ∀ (l : LC) (c : Char), (l.dropWhile p).head? = some c → p c = false := by
  intro l
  induction l with
  | nil => intro c h; simp at h
  | cons a rest ih =>
    intro c h
    by_cases ha : p a = true
    · rw [List.dropWhile_cons_of_pos ha] at h
      exact ih c h
    · rw [List.dropWhile_cons_of_neg (by simpa using ha)] at h
      simp only [List.head?_cons, Option.some.injEq] at h
      subst h
      simpa using ha

theorem dropWhile_eq_self_of_head (p : Char → Bool) (l : LC)
    (h : ∀ c, l.head? = some c → p c = false) : l.dropWhile p = l := by
  cases l with
  | nil => rfl
  | cons a rest =>
    rw [List.dropWhile_cons_of_neg]
    simp [h a rfl]

theorem dropWhile_dropWhile (p : Char → Bool) (l : LC) :
    (l.dropWhile p).dropWhile p = l.dropWhile p := by
  apply dropWhile_eq_self_of_head
  intro c hc
  exact head?_dropWhile_neg p l c hc

theorem getLast?_dropWhile (p : Char → Bool) (l : LC)
    (h : l.dropWhile p ≠ []) : (l.dropWhile p).getLast? = l.getLast? := by
  obtain ⟨s, hs⟩ := dropWhile_decomp p l
  conv_rhs => rw [hs]
  rw [List.getLast?_append]
  cases hg : (l.dropWhile p).getLast? with
  | none => exact absurd (List.getLast?_eq_none_iff.mp hg) h
  | some c => rfl

theorem pyStrip_idem (l : LC) : pyStrip (pyStrip l) = pyStrip l := by
  set u := l.dropWhile isSpaceRe with hu
  set v := u.reverse.dropWhile isSpaceRe with hv
  have hstrip : pyStrip l = v.reverse := rfl
  rw [hstrip, pyStrip]
  have hA : v.reverse.dropWhile isSpaceRe = v.reverse := by
    apply dropWhile_eq_self_of_head
    intro c hc
    rw [List.head?_reverse] at hc
    by_cases hvnil : v = []
    · rw [hvnil] at hc; simp at hc
    · rw [hv] at hc
      rw [getLast?_dropWhile isSpaceRe u.reverse (hv ▸ hvnil)] at hc
      rw [List.getLast?_reverse] at hc
      have : (l.dropWhile isSpaceRe).head? = some c := hc
      exact head?_dropWhile_neg isSpaceRe l c this
  rw [hA, List.reverse_reverse]
  rw [hv, dropWhile_dropWhile]

theorem mem_pyStrip (l : LC) (c : Char) (h : c ∈ pyStrip l) : c ∈ l := by
  obtain ⟨s, t, hst⟩ := pyStrip_decomp l
  rw [hst]
  simp only [List.mem_append]
  exact Or.inl (Or.inr h)

theorem pyStrip_pairs (p q : Char → Bool) (l : LC)
    (h : hasPair p q (pyStrip l) = true) : hasPair p q l = true := by
  obtain ⟨s, t, hst⟩ := pyStrip_decomp l
  rw [hst]
  exact hasPair_middle p q s _ t h

theorem pyStrip_triples (p : Char → Bool) (l : LC)
    (h : hasTriple p (pyStrip l) = true) : hasTriple p l = true := by
  obtain ⟨s, t, hst⟩ := pyStrip_decomp l
  rw [hst]
  exact hasTriple_middle p s _ t h

/-- C2 counterexample: normalization is not idempotent. In `--\n\nx` the
hyphen-newline deletion produces a new `-\n` pair (the regex scan does not
revisit), which a second normalization deletes. -/
theorem c2_counterexample :
    collapseText (collapseText (lcOf "--\n\nx")) ≠ collapseText (lcOf "--\n\nx") := by
  decide

/-- C2 amended: normalization is idempotent on every input whose normalized
form contains no `-\n` pair (deleting such pairs is the one non-idempotent
stage; every other stage leaves its own output fixed). -/
theorem c2_normalize_idem (x : LC)
    (h : hasPair (fun c => c = '-') (fun c => c = '\n') (collapseText x) = false) :
    collapseText (collapseText x) = collapseText x := by
  by_cases hx : x = []
  · subst hx; rfl
  · set y := collapseText x with hy
    by_cases hynil : y = []
    · rw [hynil]; rfl
    · have hydef : y = pyStrip (collapseNLs (collapseSpaces (crToNl (subHyphenNL
          (subSoftHyph x))))) := by
        rw [hy, collapseText, if_neg hx]
      have hnotab : ∀ c ∈ y, c ≠ '\t' := by
        intro c hc hct
        subst hct
        have hc1 := mem_pyStrip _ _ (hydef ▸ hc)
        have hc2 := mem_collapseNLs _ _ hc1
        have := mem_collapseSpaces_HT _ _ hc2 (by decide)
        exact absurd this (by decide)
      have hnosh : ∀ c ∈ y, c ≠ '­' := by
        intro c hc
        have hc1 := mem_pyStrip _ _ (hydef ▸ hc)
        have hc2 := mem_collapseNLs _ _ hc1
        rcases mem_collapseSpaces _ _ hc2 with hc3 | hsp
        · rcases mem_crToNl _ _ hc3 with ⟨-, hc4 | hnl⟩
          · exact (mem_subSoftHyph _ _ (mem_subHyphenNL _ _ hc4)).2
          · subst hnl; decide
        · subst hsp; decide
      have hnocr : ∀ c ∈ y, c ≠ '\r' := by
        intro c hc
        have hc1 := mem_pyStrip _ _ (hydef ▸ hc)
        have hc2 := mem_collapseNLs _ _ hc1
        rcases mem_collapseSpaces _ _ hc2 with hc3 | hsp
        · exact (mem_crToNl _ _ hc3).1
        · subst hsp; decide
      have hnodouble : hasPair isHT isHT y = false := by
        rw [hydef]
        cases hh : hasPair isHT isHT (pyStrip (collapseNLs (collapseSpaces (crToNl
            (subHyphenNL (subSoftHyph x)))))) with
        | false => rfl
        | true =>
          exfalso
          have h1 := pyStrip_pairs _ _ _ hh
          have h2 := collapseNLs_pairs _ _ _ h1
          rw [collapseSpaces_noDouble] at h2
          exact Bool.false_ne_true h2
      have hnotriple : hasTriple (fun c => c = '\n') y = false := by
        rw [hydef]
        cases hh : hasTriple (fun c => c = '\n') (pyStrip (collapseNLs (collapseSpaces
            (crToNl (subHyphenNL (subSoftHyph x)))))) with
        | false => rfl
        | true =>
          exfalso
          have h1 := pyStrip_triples _ _ hh
          rw [collapseNLs_noTriple] at h1
          exact Bool.false_ne_true h1
      have hstrip : pyStrip y = y := by
        rw [hydef]
        exact pyStrip_idem _
      calc collapseText y
          = pyStrip (collapseNLs (collapseSpaces (crToNl (subHyphenNL
              (subSoftHyph y))))) := by rw [collapseText, if_neg hynil]
        _ = y := by
            rw [subSoftHyph_eq_self y hnosh, subHyphenNL_eq_self y h,
              crToNl_eq_self y hnocr, collapseSpaces_eq_self y hnotab hnodouble,
              collapseNLs_eq_self y hnotriple, hstrip]

theorem c2_witness :
    collapseText (collapseText (lcOf "Baugesuch  vom 1. Mai\n\n\nSeite 2")) =
      collapseText (lcOf "Baugesuch  vom 1. Mai\n\n\nSeite 2") :=
  c2_normalize_idem (lcOf "Baugesuch  vom 1. Mai\n\n\nSeite 2") (by decide)

/-! ## BoxLocator lemmas (C8) -/

theorem countWhile_take_all (p : Char → Bool) :
    ∀ l : LC, ∀ c ∈ l.take (countWhile p l), p c = true := by
  intro l
  induction l with
  | nil => intro c h; simp at h
  | cons a rest ih =>
    intro c h
    rw [countWhile] at h
    by_cases ha : p a = true
    · rw [if_pos ha, List.take_succ_cons] at h
      rcases List.mem_cons.mp h with h | h
      · exact h ▸ ha
      · exact ih c h
    · rw [if_neg ha] at h
      simp at h

theorem countWhile_le_length (p : Char → Bool) : ∀ l : LC, countWhile p l ≤ l.length := by
  intro l
  induction l with
  | nil => exact Nat.le_refl 0
  | cons a rest ih =>
    rw [countWhile]
    by_cases ha : p a = true
    · rw [if_pos ha]; simpa using ih
    · rw [if_neg ha]; simp

theorem countWhile_eq_of (p : Char → Bool) :
    ∀ (l : LC) (m : Nat), (∀ c ∈ l.take m, p c = true) →
      (∃ c, l.get? m = some c ∧ p c = false) → countWhile p l = m := by
  intro l
  induction l with
  | nil =>
    intro m _ hm
    obtain ⟨c, hc, -⟩ := hm
    simp at hc
  | cons a rest ih =>
    intro m hall hm
    cases m with
    | zero =>
      rw [countWhile]
      obtain ⟨c, hc, hcp⟩ := hm
      simp only [List.get?_cons_zero, Option.some.injEq] at hc
      rw [if_neg (by simp [hc, hcp])]
    | succ k =>
      rw [countWhile]
      have ha : p a = true := hall a (by simp)
      rw [if_pos ha]
      obtain ⟨c, hc, hcp⟩ := hm
      have := ih k (fun c hc => hall c (by simpa using List.mem_cons_of_mem a hc))
        ⟨c, by simpa using hc, hcp⟩
      omega

theorem isSpaceRe_lowerC (c : Char) : isSpaceRe (lowerC c) = isSpaceRe c := by
  rcases lowerC_inv c with hc | hc
  · rw [hc]
  · have key : ∀ p ∈ casePairs, isSpaceRe p.2 = isSpaceRe p.1 := by decide
    have h2 : (c, lowerC c).2 = lowerC c := rfl
    have := key _ hc
    simpa using this

theorem length_of_lowerList_eq (w t : LC) (h : lowerList w = t) : w.length = t.length := by
  rw [← h, lowerList, List.length_map]

theorem headerEndAt_some (u : LC) (e : Nat) (h : headerEndAt u = some e) :
    IsHeaderToken (u.take e) ∧ e ≤ u.length ∧ 21 ≤ e := by
  rw [headerEndAt] at h
  split_ifs at h with h1 h2 h3
  · -- spaced/glued spelling
    have he : e = 21 + countWhile isSpaceRe (u.drop 9) := by
      simpa using h.symm
    set m := countWhile isSpaceRe (u.drop 9) with hm
    have hlen12 : ((u.drop (9 + m)).take 12).length = 12 := length_of_lowerList_eq _ _ h2
    have hul : 21 + m ≤ u.length := by
      rw [List.length_take, List.length_drop] at hlen12
      omega
    have hue : e ≤ u.length := by omega
    refine ⟨Or.inl ?_, hue, by omega⟩
    have hLl : (u.take e).length = e := by
      rw [List.length_take]
      omega
    refine ⟨by omega, ?_, ?_, ?_⟩
    · intro c hc
      rw [hLl] at hc
      rw [List.drop_take e 9, List.take_take] at hc
      have hmin : min (e - 21) (e - 9) = m := by omega
      rw [hmin] at hc
      exact countWhile_take_all isSpaceRe (u.drop 9) c (hm ▸ hc)
    · rw [List.take_take]
      have : min 9 e = 9 := by omega
      rw [this]
      exact h1
    · rw [hLl, List.drop_take e (e - 12)]
      have h912 : e - (e - 12) = 12 := by omega
      have h912b : e - 12 = 9 + m := by omega
      rw [h912, h912b]
      exact h2
  · -- `c`-corrupted spelling
    have he : e = 21 := by simpa using h.symm
    subst he
    have hlen : (u.take 21).length = 21 := length_of_lowerList_eq _ _ h3.2
    have hul : 21 ≤ u.length := by
      rw [List.length_take] at hlen
      omega
    exact ⟨Or.inr h3.2, hul, Nat.le_refl 21⟩

theorem footerLenAt_some (u : LC) (n : Nat) (h : footerLenAt u = some n) :
    IsFooterToken (u.take n) ∧ n ≤ u.length ∧ 22 ≤ n := by
  rw [footerLenAt] at h
  split_ifs at h with h1 h2
  · have he : n = 21 + countWhile isSpaceRe (u.drop 13) := by simpa using h.symm
    set m := countWhile isSpaceRe (u.drop 13) with hm
    obtain ⟨hm1, htr⟩ := h2
    have hlen8 : ((u.drop (13 + m)).take 8).length = 8 := by
      rcases htr with htr | htr
      · exact length_of_lowerList_eq _ _ htr
      · exact length_of_lowerList_eq _ _ htr
    have hul : 21 + m ≤ u.length := by
      rw [List.length_take, List.length_drop] at hlen8
      omega
    have hue : n ≤ u.length := by omega
    have hLl : (u.take n).length = n := by
      rw [List.length_take]
      omega
    refine ⟨⟨by omega, ?_, ?_, ?_⟩, hue, by omega⟩
    · intro c hc
      rw [hLl] at hc
      rw [List.drop_take n 13, List.take_take] at hc
      have hmin : min (n - 21) (n - 13) = m := by omega
      rw [hmin] at hc
      exact countWhile_take_all isSpaceRe (u.drop 13) c (hm ▸ hc)
    · rw [List.take_take]
      have : min 13 n = 13 := by omega
      rw [this]
      exact h1
    · rw [hLl, List.drop_take n (n - 8)]
      have hn8 : n - (n - 8) = 8 := by omega
      have hn8b : n - 8 = 13 + m := by omega
      rw [hn8, hn8b]
      exact htr

theorem footerLenAt_complete (u : LC) (f : Nat) (h : IsFooterToken (u.take f)) :
    footerLenAt u = some ((u.take f).length) := by
  obtain ⟨hlen, hsp, h13, htr⟩ := h
  set L := (u.take f).length with hL
  have hLf : L ≤ f := by rw [hL, List.length_take]; omega
  have hLu : L ≤ u.length := by rw [hL, List.length_take]; omega
  have hLarith : L = min f u.length := by rw [hL, List.length_take]
  -- the head of the trailer is a non-space character
  have htrlen : ((u.take f).drop (L - 8)).length = 8 := by
    rw [List.length_drop, ← hL]
    omega
  obtain ⟨c0, r0, hc0⟩ : ∃ c0 r0, (u.take f).drop (L - 8) = c0 :: r0 := by
    cases hx : (u.take f).drop (L - 8) with
    | nil => rw [hx] at htrlen; simp at htrlen
    | cons c0 r0 => exact ⟨c0, r0, rfl⟩
  have hc0w : lowerC c0 = 'w' := by
    rcases htr with htr | htr <;>
      (rw [hc0] at htr; exact (List.cons_eq_cons.mp htr).1)
  have hc0ns : isSpaceRe c0 = false := by
    rw [← isSpaceRe_lowerC, hc0w]
    decide
  -- the whitespace run after BAUVERWALTUNG has length exactly L - 21
  have hcw : countWhile isSpaceRe (u.drop 13) = L - 21 := by
    apply countWhile_eq_of
    · intro c hc
      apply hsp c
      rw [List.drop_take f 13, List.take_take]
      have : min (L - 21) (f - 13) = L - 21 := by omega
      rw [this]
      rw [hL]
      have hL21 : (u.take f).length - 21 = L - 21 := by rw [← hL]
      rw [hL21]
      exact hc
    · refine ⟨c0, ?_, hc0ns⟩
      have h3 : (u.take f).get? (L - 8) = some c0 := by
        have h4 := congrArg (fun l : LC => l.get? 0) hc0
        simp only [List.get?_drop, Nat.add_zero] at h4
        simpa using h4
      rw [List.get?_take (by omega : L - 8 < f)] at h3
      rw [List.get?_drop, show 13 + (L - 21) = L - 8 by omega]
      exact h3
  rw [footerLenAt]
  have h13u : lowerList (u.take 13) = lcOf "bauverwaltung" := by
    rw [show u.take 13 = (u.take f).take 13 by
      rw [List.take_take]
      congr 1
      omega]
    exact h13
  rw [if_pos h13u]
  have htru : (lowerList ((u.drop (13 + countWhile isSpaceRe (u.drop 13))).take 8) =
      lcOf "würenlos" ∨
    lowerList ((u.drop (13 + countWhile isSpaceRe (u.drop 13))).take 8) =
      lcOf "wurenlos") := by
    have harg : (u.drop (13 + countWhile isSpaceRe (u.drop 13))).take 8 =
        (u.take f).drop (L - 8) := by
      rw [hcw, show 13 + (L - 21) = L - 8 by omega]
      rw [List.drop_take f (L - 8)]
      by_cases hfu : f ≤ u.length
      · congr 1
        omega
      · have hlen8 : (u.drop (L - 8)).length ≤ 8 := by
          rw [List.length_drop]
          omega
        rw [List.take_of_length_le hlen8, List.take_of_length_le (by omega)]
    rw [harg]
    exact htr
  rw [if_pos ⟨by omega, htru⟩]
  congr 1
  omega

theorem footerFind_some (v : LC) (d fl : Nat) (h : footerFind v = some (d, fl)) :
    IsFooterToken ((v.drop d).take fl) ∧ d + fl ≤ v.length ∧
      ∀ q, q < d → footerLenAt (v.drop q) = none := by
  induction v generalizing d with
  | nil => rw [footerFind] at h; exact absurd h (by simp)
  | cons c rest ih =>
    rw [footerFind] at h
    cases hfl : footerLenAt (c :: rest) with
    | some fl0 =>
      rw [hfl] at h
      simp only [Option.some.injEq, Prod.mk.injEq] at h
      obtain ⟨hd, hfl0⟩ := h
      subst hd
      subst hfl0
      obtain ⟨ht, hle, -⟩ := footerLenAt_some _ _ hfl
      exact ⟨by simpa using ht, by simpa using hle,
        fun q hq => absurd hq (by omega)⟩
    | none =>
      rw [hfl] at h
      cases hrec : footerFind rest with
      | none => rw [hrec] at h; exact absurd h (by simp)
      | some p =>
        obtain ⟨d1, fl1⟩ := p
        rw [hrec] at h
        simp only [Option.map_some', Option.some.injEq, Prod.mk.injEq] at h
        obtain ⟨hd, hfl1⟩ := h
        subst hfl1
        obtain ⟨ht, hle, hmin⟩ := ih d1 hrec
        subst hd
        refine ⟨?_, ?_, ?_⟩
        · simpa using ht
        · simp only [List.length_cons]
          omega
        · intro q hq
          match q with
          | 0 => exact hfl
          | q1 + 1 =>
            have := hmin q1 (by omega)
            simpa using this

theorem HeadSpan_length (u : LC) (n : Nat) (h : HeadSpan u n) : 21 ≤ u.length := by
  obtain ⟨hn, e, he, hhead, -, -⟩ := h
  have h21 : 21 ≤ (u.take e).length := by
    rcases hhead with ⟨h1, -⟩ | h1
    · exact h1
    · have hl := length_of_lowerList_eq _ _ h1
      have : (lcOf "baugesuchspublication").length = 21 := by decide
      omega
  rw [List.length_take] at h21
  omega

theorem boxMatchAt_some (u : LC) (n : Nat) (h : boxMatchAt u = some n) :
    HeadSpan u n := by
  unfold boxMatchAt at h
  cases hh : headerEndAt u with
  | none => rw [hh] at h; exact absurd h (by simp)
  | some e =>
    rw [hh] at h
    dsimp only at h
    by_cases hwb : wbHead (u.drop e) = true
    · rw [if_pos hwb] at h
      cases hf : footerFind (u.drop e) with
      | none => rw [hf] at h; exact absurd h (by simp)
      | some p =>
        obtain ⟨d, fl⟩ := p
        rw [hf] at h
        have hn : e + d + fl = n := by simpa using h
        obtain ⟨hhead, heu, h21e⟩ := headerEndAt_some u e hh
        obtain ⟨hftr, hdfl, hmin⟩ := footerFind_some (u.drop e) d fl hf
        rw [List.length_drop] at hdfl
        refine ⟨by omega, e, by omega, hhead, hwb, e + d, by omega, by omega, ?_, ?_⟩
        · have harg : (u.drop (e + d)).take (n - (e + d)) = ((u.drop e).drop d).take fl := by
            rw [List.drop_drop]
            have hnd : n - (e + d) = fl := by omega
            rw [hnd]
          rw [harg]
          exact hftr
        · intro q hq hqe f hfu hcon
          have hq' : q - e < d := by omega
          have hnone := hmin (q - e) hq'
          rw [List.drop_drop, show e + (q - e) = q by omega] at hnone
          have := footerLenAt_complete (u.drop q) (f - q) hcon
          rw [hnone] at this
          exact absurd this (by simp)
    · rw [if_neg hwb] at h
      exact absurd h (by simp)

theorem scanBoxesGo_empty (fuel : Nat) (t : LC)
    (h : ∀ s, boxMatchAt (t.drop s) = none) : scanBoxesGo fuel t = [] := by
  induction fuel generalizing t with
  | zero => rw [scanBoxesGo]
  | succ fuel ih =>
    cases t with
    | nil => rw [scanBoxesGo]
    | cons c rest =>
      rw [scanBoxesGo]
      have h0 := h 0
      rw [List.drop_zero] at h0
      rw [h0]
      exact ih rest (fun s => by have hs := h (s + 1); simpa using hs)

theorem scanBoxesGo_mem (fuel : Nat) (t b : LC) (h : b ∈ scanBoxesGo fuel t) :
    ∃ s n, boxMatchAt (t.drop s) = some n ∧ b = (t.drop s).take n := by
  induction fuel generalizing t with
  | zero => rw [scanBoxesGo] at h; exact absurd h (by simp)
  | succ fuel ih =>
    cases t with
    | nil => rw [scanBoxesGo] at h; exact absurd h (by simp)
    | cons c rest =>
      rw [scanBoxesGo] at h
      cases hm : boxMatchAt (c :: rest) with
      | some n0 =>
        rw [hm] at h
        rcases List.mem_cons.mp h with hb | hb
        · exact ⟨0, n0, by simpa using hm, by simpa using hb⟩
        · obtain ⟨s1, n1, h1, h2⟩ := ih _ hb
          rw [List.drop_drop] at h1 h2
          exact ⟨n0 + s1, n1, h1, h2⟩
      | none =>
        rw [hm] at h
        obtain ⟨s1, n1, h1, h2⟩ := ih _ h
        exact ⟨s1 + 1, n1, by simpa using h1, by simpa using h2⟩

/-- **C8**: the box locator is a total function (so it never raises): when no
header-to-footer span matches anywhere in the collapsed text it returns the
empty list, and every box it returns is a shortest header-to-footer span
(`HeadSpan`: a header token with a word boundary, then the earliest footer
token after it, `.` free to cross newlines) with the header stripped from its
front. -/
theorem c8_box_locator (txt : LC) :
    ((∀ s n, ¬ HeadSpan ((collapseText txt).drop s) n) → findBoxesInText txt = []) ∧
    ∀ b ∈ findBoxesInText txt, ∃ s n, HeadSpan ((collapseText txt).drop s) n ∧
      b = stripHeaderLine (((collapseText txt).drop s).take n) := by
  constructor
  · intro h
    simp only [findBoxesInText]
    have he : scanBoxesGo (collapseText txt).length (collapseText txt) = [] := by
      apply scanBoxesGo_empty
      intro s
      cases hm : boxMatchAt ((collapseText txt).drop s) with
      | none => rfl
      | some n => exact absurd (boxMatchAt_some _ _ hm) (h s n)
    rw [he]
    rfl
  · intro b hb
    simp only [findBoxesInText] at hb
    obtain ⟨b0, hb0, hbeq⟩ := List.mem_map.mp hb
    obtain ⟨s, n, hm, hbe⟩ := scanBoxesGo_mem _ _ _ hb0
    exact ⟨s, n, boxMatchAt_some _ _ hm, by rw [← hbeq, hbe]⟩

set_option maxRecDepth 100000 in
theorem c8_witness :
    findBoxesInText (lcOf "kein Inhalt") = [] ∧
    (∃ s n, HeadSpan ((collapseText (lcOf
        "xx Baugesuchspublikation Haus 5436 BAUVERWALTUNG WÜRENLOS yy")).drop s) n ∧
      lcOf "Haus 5436 BAUVERWALTUNG WÜRENLOS" =
        stripHeaderLine (((collapseText (lcOf
          "xx Baugesuchspublikation Haus 5436 BAUVERWALTUNG WÜRENLOS yy")).drop s).take n)) := by
  constructor
  · apply (c8_box_locator (lcOf "kein Inhalt")).1
    intro s n h
    have h21 := HeadSpan_length _ _ h
    have hlen : (collapseText (lcOf "kein Inhalt")).length = 11 := by decide
    rw [List.length_drop, hlen] at h21
    omega
  · refine ⟨3, 54, ?_, ?_⟩
    · apply boxMatchAt_some
      decide
    · decide

theorem head?_mem (l : LC) (c : Char) (h : l.head? = some c) : c ∈ l := by
  cases l with
  | nil => simp at h
  | cons a rest =>
    simp only [List.head?_cons, Option.some.injEq] at h
    rw [← h]
    exact List.mem_cons_self _ _

theorem hasPair_head_false (p q : Char → Bool) (a b : Char) (rest : LC)
    (h : hasPair p q (a :: b :: rest) = false) : ¬(p a = true ∧ q b = true) := by
  intro hc
  rw [hasPair, decide_eq_false_iff_not] at h
  exact h (Or.inl hc)

theorem hasPair_cons_false (p q : Char → Bool) (a : Char) (l : LC)
    (h1 : ∀ b, l.head? = some b → ¬(p a = true ∧ q b = true))
    (h2 : hasPair p q l = false) : hasPair p q (a :: l) = false := by
  cases l with
  | nil => exact hasPair_one p q a
  | cons b rest =>
    rw [hasPair, decide_eq_false_iff_not]
    intro hor
    rcases hor with hc | hc
    · exact h1 b rfl hc
    · rw [hc] at h2
      exact absurd h2 (by decide)

theorem hasPair_append_false (p q : Char → Bool) :
    ∀ (x y : LC), hasPair p q x = false → hasPair p q y = false →
    (∀ cx cy, x.getLast? = some cx → y.head? = some cy →
      ¬(p cx = true ∧ q cy = true)) →
    hasPair p q (x ++ y) = false := by
  intro x
  induction x with
  | nil => intro y _ hy _; simpa using hy
  | cons a xs ih =>
    intro y hx hy hb
    rw [List.cons_append]
    apply hasPair_cons_false
    · intro b hhead
      cases xs with
      | nil =>
        rw [List.nil_append] at hhead
        exact hb a b (by simp) hhead
      | cons a2 xs2 =>
        rw [List.cons_append, List.head?_cons, Option.some.injEq] at hhead
        rw [← hhead]
        exact hasPair_head_false p q a a2 xs2 hx
    · apply ih y (hasPair_tail _ _ _ _ hx) hy
      intro cx cy hcx hcy
      apply hb cx cy ?_ hcy
      cases xs with
      | nil => simp at hcx
      | cons a2 xs2 =>
        rw [List.getLast?_cons_cons]
        exact hcx

theorem hasPair_none_q (p q : Char → Bool) :
    ∀ l : LC, (∀ c ∈ l, q c = false) → hasPair p q l = false := by
  intro l
  induction l with
  | nil => intro _; exact hasPair_nil p q
  | cons a rest ih =>
    intro h
    apply hasPair_cons_false
    · intro b hb hc
      have hq := h b (List.mem_cons_of_mem _ (head?_mem _ _ hb))
      rw [hc.2] at hq
      exact absurd hq (by decide)
    · exact ih (fun c hc => h c (List.mem_cons_of_mem _ hc))

theorem hasPair_imp_false (p q p' q' : Char → Bool)
    (hp : ∀ c, p c = true → p' c = true) (hq : ∀ c, q c = true → q' c = true) :
    ∀ l : LC, hasPair p' q' l = false → hasPair p q l = false := by
  intro l
  induction l with
  | nil => intro _; exact hasPair_nil p q
  | cons a rest ih =>
    intro h
    apply hasPair_cons_false
    · intro b hb hc
      cases rest with
      | nil => simp at hb
      | cons b2 rest2 =>
        rw [List.head?_cons, Option.some.injEq] at hb
        rw [← hb] at hc
        exact hasPair_head_false p' q' a b2 rest2 h ⟨hp a hc.1, hq b2 hc.2⟩
    · exact ih (hasPair_tail _ _ _ _ h)

theorem plainTxt_spec (c : Char) (h : plainTxt c = true) :
    (isSpaceRe c = false ∨ c = ' ') ∧ c ≠ '­' ∧ c ≠ '-' := by
  rw [plainTxt] at h
  exact of_decide_eq_true h

theorem plainTxt_not_nl (c : Char) (h : plainTxt c = true) : c ≠ '\n' := by
  intro hc
  rw [hc] at h
  exact absurd h (by decide)

theorem plainTxt_not_tab (c : Char) (h : plainTxt c = true) : c ≠ '\t' := by
  intro hc
  rw [hc] at h
  exact absurd h (by decide)

theorem isHT_isSpaceRe (c : Char) (h : isHT c = true) : isSpaceRe c = true := by
  rw [isHT] at h
  rcases of_decide_eq_true h with h1 | h1 <;> (rw [h1]; decide)

theorem joinLinesGo_eq_self : ∀ (fuel : Nat) (l : LC), (∀ c ∈ l, c ≠ '\n') →
    joinLinesGo fuel l = l := by
  intro fuel
  induction fuel with
  | zero =>
    intro l _
    cases l with
    | nil => rfl
    | cons c rest => rfl
  | succ fuel ih =>
    intro l h
    cases l with
    | nil => rfl
    | cons c rest =>
      rw [joinLinesGo]
      by_cases hc : isSpaceRe c = true
      · rw [if_pos hc]
        have hnl : ((c :: rest).take (countWhile isSpaceRe (c :: rest))).contains '\n'
            = false := by
          rw [Bool.eq_false_iff]
          intro hcont
          have hm : '\n' ∈ (c :: rest).take (countWhile isSpaceRe (c :: rest)) := by
            simpa using hcont
          exact h '\n' (List.mem_of_mem_take hm) rfl
        rw [if_neg (by
          intro hm
          have hcont : ((c :: rest).take (countWhile isSpaceRe (c :: rest))).contains '\n'
              = true := by simpa using hm
          rw [hnl] at hcont
          exact absurd hcont (by decide))]
        rw [ih _ (fun d hd => h d (List.mem_of_mem_drop hd))]
        exact List.take_append_drop _ _
      · rw [if_neg hc]
        rw [ih rest (fun d hd => h d (List.mem_cons_of_mem _ hd))]

theorem multiSpaceGo_eq_self : ∀ (fuel : Nat) (l : LC),
    hasPair isSpaceRe isSpaceRe l = false → multiSpaceGo fuel l = l := by
  intro fuel
  induction fuel with
  | zero =>
    intro l _
    cases l with
    | nil => rfl
    | cons c rest => rfl
  | succ fuel ih =>
    intro l h
    cases l with
    | nil => rfl
    | cons c rest =>
      rw [multiSpaceGo]
      by_cases hc : isSpaceRe c = true
      · rw [if_pos hc]
        have hk : countWhile isSpaceRe (c :: rest) = 1 := by
          rw [countWhile, if_pos hc]
          cases rest with
          | nil => rfl
          | cons d rest2 =>
            have hd : isSpaceRe d = false := by
              by_cases hd2 : isSpaceRe d = true
              · exact absurd ⟨hc, hd2⟩ (hasPair_head_false _ _ _ _ _ h)
              · simpa using hd2
            rw [countWhile, if_neg (by simp [hd])]
        rw [hk, if_neg (by omega)]
        rw [ih rest (hasPair_tail _ _ _ _ h)]
      · rw [if_neg hc]
        rw [ih rest (hasPair_tail _ _ _ _ h)]

theorem pyStrip_eq_self (l : LC)
    (hh : ∀ c, l.head? = some c → isSpaceRe c = false)
    (hl : ∀ c, l.getLast? = some c → isSpaceRe c = false) : pyStrip l = l := by
  rw [pyStrip]
  rw [dropWhile_eq_self_of_head isSpaceRe l hh]
  rw [dropWhile_eq_self_of_head isSpaceRe l.reverse
    (fun c hc => hl c (by rwa [List.head?_reverse] at hc))]
  rw [List.reverse_reverse]

theorem stepPipe_id (l : LC)
    (hp : ∀ c ∈ l, plainTxt c = true)
    (hpair : hasPair isSpaceRe isSpaceRe l = false)
    (hh : ∀ c, l.head? = some c → isSpaceRe c = false)
    (hl : ∀ c, l.getLast? = some c → isSpaceRe c = false) :
    pyStrip (collapseSpaces (joinLinesSub (subHyphenNL (subSoftHyph l)))) = l := by
  rw [subSoftHyph_eq_self l (fun c hc => (plainTxt_spec c (hp c hc)).2.1)]
  rw [subHyphenNL_eq_self l (hasPair_none_q _ _ l
    (fun c hc => by
      rw [Bool.eq_false_iff]
      intro hd
      exact plainTxt_not_nl c (hp c hc) (of_decide_eq_true hd)))]
  rw [joinLinesSub, joinLinesGo_eq_self _ l (fun c hc => plainTxt_not_nl c (hp c hc))]
  rw [collapseSpaces_eq_self l (fun c hc => plainTxt_not_tab c (hp c hc))
    (hasPair_imp_false isHT isHT isSpaceRe isSpaceRe isHT_isSpaceRe isHT_isSpaceRe l hpair)]
  exact pyStrip_eq_self l hh hl

theorem cleanSpaces_eq_self (l : LC)
    (hp : ∀ c ∈ l, plainTxt c = true)
    (hpair : hasPair isSpaceRe isSpaceRe l = false)
    (hh : ∀ c, l.head? = some c → isSpaceRe c = false)
    (hl : ∀ c, l.getLast? = some c → isSpaceRe c = false) : cleanSpaces l = l := by
  rw [cleanSpaces]
  rw [joinLinesSub, joinLinesGo_eq_self _ l (fun c hc => plainTxt_not_nl c (hp c hc))]
  rw [collapseSpaces_eq_self l (fun c hc => plainTxt_not_tab c (hp c hc))
    (hasPair_imp_false isHT isHT isSpaceRe isSpaceRe isHT_isSpaceRe isHT_isSpaceRe l hpair)]
  rw [multiSpaceSub, multiSpaceGo_eq_self _ l hpair]
  exact pyStrip_eq_self l hh hl

theorem footerLenAt_head_not_b (u : LC)
    (h : ∀ c, u.head? = some c → lowerC c ≠ 'b') : footerLenAt u = none := by
  cases u with
  | nil => decide
  | cons c rest =>
    rw [footerLenAt, if_neg]
    intro hc
    have h1 : lowerList ((c :: rest).take 13) = lowerC c :: lowerList (rest.take 12) := rfl
    rw [h1] at hc
    have h2 := congrArg List.head? hc
    rw [List.head?_cons, show (lcOf "bauverwaltung").head? = some 'b' from rfl,
      Option.some.injEq] at h2
    exact h c rfl h2

theorem footerPlusGo_none (fuel : Nat) (u : LC)
    (h : ∀ c, u.head? = some c → lowerC c ≠ 'b') : footerPlusGo fuel u = none := by
  cases fuel with
  | zero => rfl
  | succ fuel =>
    rw [footerPlusGo, footerLenAt_head_not_b u h]

theorem countWhile_append_stop (p : Char → Bool) :
    ∀ (x y : LC), countWhile p x < x.length → countWhile p (x ++ y) = countWhile p x := by
  intro x
  induction x with
  | nil => intro y h; simp at h
  | cons c xs ih =>
    intro y h
    rw [List.cons_append, countWhile, countWhile]
    by_cases hc : p c = true
    · rw [if_pos hc, if_pos hc]
      rw [countWhile, if_pos hc, List.length_cons] at h
      rw [ih y (by omega)]
    · rw [if_neg hc, if_neg hc]

theorem footerLenAt_fc (x : LC) : footerLenAt (footerCanon ++ x) = some 22 := by
  have h13 : (footerCanon ++ x).take 13 = lcOf "BAUVERWALTUNG" := by
    rw [List.take_append_of_le_length (by decide)]
    decide
  have hdrop : (footerCanon ++ x).drop 13 = lcOf " WÜRENLOS" ++ x := by
    rw [List.drop_append_of_le_length (by decide)]
    rw [show footerCanon.drop 13 = lcOf " WÜRENLOS" from rfl]
  have hcw : countWhile isSpaceRe ((footerCanon ++ x).drop 13) = 1 := by
    rw [hdrop, countWhile_append_stop isSpaceRe _ x (by decide)]
    decide
  have hdrop14 : (footerCanon ++ x).drop 14 = lcOf "WÜRENLOS" ++ x := by
    rw [List.drop_append_of_le_length (by decide)]
    rw [show footerCanon.drop 14 = lcOf "WÜRENLOS" from rfl]
  rw [footerLenAt, h13, if_pos (by decide), hcw]
  rw [show (13 : Nat) + 1 = 14 from rfl, hdrop14]
  rw [List.take_append_of_le_length (by decide)]
  rw [show (lcOf "WÜRENLOS").take 8 = lcOf "WÜRENLOS" from rfl]
  rw [if_pos ⟨by omega, Or.inl (by decide)⟩]

theorem drop22_fc (y : LC) : (footerCanon ++ y).drop 22 = y := by
  have h := List.drop_left footerCanon y
  rwa [show footerCanon.length = 22 from rfl] at h

theorem footerPlusGo_fc1 (k : Nat) (b : LC)
    (hb : ∀ c, b.head? = some c → lowerC c ≠ 'b') :
    footerPlusGo (k + 1) (footerCanon ++ b) = some 22 := by
  rw [footerPlusGo, footerLenAt_fc]
  dsimp only
  rw [drop22_fc, footerPlusGo_none k b hb]

theorem footerPlusGo_fc2 (k : Nat) (b : LC)
    (hb : ∀ c, b.head? = some c → lowerC c ≠ 'b') :
    footerPlusGo (k + 2) (footerCanon ++ (footerCanon ++ b)) = some 44 := by
  rw [show k + 2 = (k + 1) + 1 from rfl, footerPlusGo, footerLenAt_fc]
  dsimp only
  rw [drop22_fc, footerPlusGo_fc1 k b hb]

theorem footerPlusGo_fc3 (k : Nat) (b : LC)
    (hb : ∀ c, b.head? = some c → lowerC c ≠ 'b') :
    footerPlusGo (k + 3) (footerCanon ++ (footerCanon ++ (footerCanon ++ b))) = some 66 := by
  rw [show k + 3 = (k + 2) + 1 from rfl, footerPlusGo, footerLenAt_fc]
  dsimp only
  rw [drop22_fc, footerPlusGo_fc2 k b hb]

theorem footerMultGo_eq_self : ∀ (fuel : Nat) (l : LC),
    (∀ c ∈ l, lowerC c ≠ 'b') → footerMultGo fuel l = l := by
  intro fuel
  induction fuel with
  | zero =>
    intro l _
    cases l with
    | nil => rfl
    | cons c rest => rfl
  | succ fuel ih =>
    intro l h
    cases l with
    | nil => rfl
    | cons c rest =>
      rw [footerMultGo]
      rw [footerPlusGo_none _ _ (fun d hd => by
        rw [List.head?_cons, Option.some.injEq] at hd
        rw [← hd]
        exact h c (List.mem_cons_self _ _))]
      dsimp only
      rw [ih rest (fun d hd => h d (List.mem_cons_of_mem _ hd))]

theorem footerMultGo_bfree_skip : ∀ (a : LC) (fuel : Nat) (r : LC),
    (∀ c ∈ a, lowerC c ≠ 'b') →
    footerMultGo (a.length + fuel) (a ++ r) = a ++ footerMultGo fuel r := by
  intro a
  induction a with
  | nil =>
    intro fuel r _
    simp
  | cons c as ih =>
    intro fuel r h
    rw [List.cons_append]
    rw [show (c :: as).length + fuel = (as.length + fuel) + 1 by
      simp only [List.length_cons]
      omega]
    rw [footerMultGo]
    rw [footerPlusGo_none _ _ (fun d hd => by
      rw [List.head?_cons, Option.some.injEq] at hd
      rw [← hd]
      exact h c (List.mem_cons_self _ _))]
    dsimp only
    rw [ih fuel r (fun d hd => h d (List.mem_cons_of_mem _ hd)), List.cons_append]

theorem footerMultSub_rep3 (a b : LC) (ha : ∀ c ∈ a, lowerC c ≠ 'b')
    (hb : ∀ c ∈ b, lowerC c ≠ 'b') :
    footerMultSub (a ++ (footerRep3 ++ b)) = a ++ (footerCanon ++ b) := by
  have hb' : ∀ c, b.head? = some c → lowerC c ≠ 'b' :=
    fun c hc => hb c (head?_mem _ _ hc)
  have hassoc : footerRep3 ++ b = footerCanon ++ (footerCanon ++ (footerCanon ++ b)) := by
    rw [footerRep3, List.append_assoc, List.append_assoc]
  have h3 : footerRep3 =
      'B' :: (lcOf "AUVERWALTUNG WÜRENLOS" ++ (footerCanon ++ footerCanon)) := by
    decide
  have hrep : footerRep3 ++ b =
      'B' :: (lcOf "AUVERWALTUNG WÜRENLOS" ++ (footerCanon ++ (footerCanon ++ b))) := by
    rw [h3, List.cons_append, List.append_assoc, List.append_assoc]
  have hd66 : (footerRep3 ++ b).drop 66 = b := by
    have h := List.drop_left footerRep3 b
    rwa [show footerRep3.length = 66 from rfl] at h
  rw [footerMultSub]
  rw [show (a ++ (footerRep3 ++ b)).length = a.length + (66 + b.length) by
    rw [List.length_append, List.length_append,
      show footerRep3.length = 66 from rfl]]
  rw [footerMultGo_bfree_skip a (66 + b.length) (footerRep3 ++ b) ha]
  rw [show (66 : Nat) + b.length = (65 + b.length) + 1 by omega]
  rw [hrep, footerMultGo]
  rw [← hrep]
  rw [show (65 + b.length) + 1 = (b.length + 63) + 3 by omega]
  rw [hassoc, footerPlusGo_fc3 (b.length + 63) b hb']
  dsimp only
  rw [← hassoc, hd66]
  rw [footerMultGo_eq_self (65 + b.length) b hb]
  rfl

theorem startsWithCS_self_append : ∀ (p m : LC), startsWithCS p (p ++ m) = true := by
  intro p
  induction p with
  | nil => intro m; rfl
  | cons c ps ih =>
    intro m
    rw [List.cons_append, startsWithCS]
    simp only [decide_eq_true_eq]
    exact ⟨trivial, ih m⟩

theorem containsSub_append_left (pat : LC) :
    ∀ (a l : LC), containsSub pat l = true → containsSub pat (a ++ l) = true := by
  intro a
  induction a with
  | nil => intro l h; simpa using h
  | cons c as ih =>
    intro l h
    rw [List.cons_append, containsSub]
    simp only [decide_eq_true_eq]
    exact Or.inr (ih l h)

theorem containsSub_here (pat m : LC) : containsSub pat (pat ++ m) = true := by
  cases hpm : pat ++ m with
  | nil =>
    have hp : pat = [] := (List.append_eq_nil.mp hpm).1
    rw [hp]
    decide
  | cons c rest =>
    rw [containsSub]
    simp only [decide_eq_true_eq]
    refine Or.inl ?_
    rw [← hpm]
    exact startsWithCS_self_append pat m

theorem startsWithCS_fc_false (c : Char) (rest : LC) (hc : lowerC c ≠ 'b') :
    startsWithCS footerCanon (c :: rest) = false := by
  have hfc : footerCanon = 'B' :: lcOf "AUVERWALTUNG WÜRENLOS" := rfl
  rw [hfc, startsWithCS, decide_eq_false_iff_not]
  intro hcon
  apply hc
  rw [← hcon.1]
  decide

theorem countOccur_bfree : ∀ l : LC, (∀ c ∈ l, lowerC c ≠ 'b') →
    countOccur footerCanon l = 0 := by
  intro l
  induction l with
  | nil => intro _; decide
  | cons c rest ih =>
    intro h
    rw [countOccur, startsWithCS_fc_false c rest (h c (List.mem_cons_self _ _))]
    rw [if_neg (by decide)]
    rw [ih (fun x hx => h x (List.mem_cons_of_mem _ hx))]

theorem countOccur_skip_bfree : ∀ (a l : LC), (∀ c ∈ a, lowerC c ≠ 'b') →
    countOccur footerCanon (a ++ l) = countOccur footerCanon l := by
  intro a
  induction a with
  | nil => intro l _; rfl
  | cons c as ih =>
    intro l h
    rw [List.cons_append, countOccur,
      startsWithCS_fc_false c _ (h c (List.mem_cons_self _ _)), if_neg (by decide)]
    rw [ih l (fun x hx => h x (List.mem_cons_of_mem _ hx))]
    omega

theorem countOccur_fc_head (b : LC) (hb : ∀ c ∈ b, lowerC c ≠ 'b') :
    countOccur footerCanon (footerCanon ++ b) = 1 := by
  have hfc : footerCanon = 'B' :: lcOf "AUVERWALTUNG WÜRENLOS" := rfl
  have hct : footerCanon ++ b = 'B' :: (lcOf "AUVERWALTUNG WÜRENLOS" ++ b) := by
    rw [hfc, List.cons_append]
  rw [hct, countOccur]
  have h1 : startsWithCS footerCanon ('B' :: (lcOf "AUVERWALTUNG WÜRENLOS" ++ b)) = true := by
    rw [← hct]
    exact startsWithCS_self_append footerCanon b
  rw [h1, if_pos rfl]
  have h2 : countOccur footerCanon (lcOf "AUVERWALTUNG WÜRENLOS" ++ b) = 0 := by
    rw [countOccur_skip_bfree _ _ (by decide)]
    exact countOccur_bfree b hb
  rw [h2]

theorem containsSub_bfree : ∀ l : LC, (∀ c ∈ l, lowerC c ≠ 'b') →
    containsSub footerCanon l = false := by
  intro l
  induction l with
  | nil => intro _; decide
  | cons c rest ih =>
    intro h
    rw [containsSub, decide_eq_false_iff_not]
    intro hor
    rcases hor with hs | hs
    · rw [startsWithCS_fc_false c rest (h c (List.mem_cons_self _ _))] at hs
      exact absurd hs (by decide)
    · rw [ih (fun x hx => h x (List.mem_cons_of_mem _ hx))] at hs
      exact absurd hs (by decide)

theorem c4_sandwich (a b mid : LC)
    (hmidp : ∀ c ∈ mid, plainTxt c = true)
    (hmidpair : hasPair isSpaceRe isSpaceRe mid = false)
    (hmidh : mid.head? = some 'B')
    (hmidl : mid.getLast? = some 'S')
    (hap : ∀ c ∈ a, plainTxt c = true)
    (hapair : hasPair isSpaceRe isSpaceRe a = false)
    (hbp : ∀ c ∈ b, plainTxt c = true)
    (hbpair : hasPair isSpaceRe isSpaceRe b = false)
    (hah : ∀ c, a.head? = some c → isSpaceRe c = false)
    (hbl : ∀ c, b.getLast? = some c → isSpaceRe c = false) :
    (∀ c ∈ a ++ (mid ++ b), plainTxt c = true) ∧
    hasPair isSpaceRe isSpaceRe (a ++ (mid ++ b)) = false ∧
    (∀ c, (a ++ (mid ++ b)).head? = some c → isSpaceRe c = false) ∧
    (∀ c, (a ++ (mid ++ b)).getLast? = some c → isSpaceRe c = false) := by
  have hmidne : mid ≠ [] := by
    intro h
    rw [h] at hmidh
    simp at hmidh
  have hhead : (mid ++ b).head? = some 'B' := by
    cases mid with
    | nil => exact absurd rfl hmidne
    | cons m0 ms =>
      rw [List.cons_append, List.head?_cons]
      rw [List.head?_cons] at hmidh
      exact hmidh
  refine ⟨?_, ?_, ?_, ?_⟩
  · intro c hc
    rcases List.mem_append.mp hc with hc | hc
    · exact hap c hc
    · rcases List.mem_append.mp hc with hc | hc
      · exact hmidp c hc
      · exact hbp c hc
  · have hmb : hasPair isSpaceRe isSpaceRe (mid ++ b) = false := by
      apply hasPair_append_false _ _ _ _ hmidpair hbpair
      intro cx cy hcx hcy
      rw [hmidl, Option.some.injEq] at hcx
      rw [← hcx]
      intro hcon
      exact absurd hcon.1 (by decide)
    apply hasPair_append_false _ _ _ _ hapair hmb
    intro cx cy hcx hcy
    rw [hhead, Option.some.injEq] at hcy
    rw [← hcy]
    intro hcon
    exact absurd hcon.2 (by decide)
  · intro c hc
    cases a with
    | nil =>
      rw [List.nil_append] at hc
      rw [hhead, Option.some.injEq] at hc
      rw [← hc]
      decide
    | cons a0 as =>
      rw [List.cons_append, List.head?_cons, Option.some.injEq] at hc
      rw [← hc]
      exact hah a0 rfl
  · intro c hc
    rw [List.getLast?_append, List.getLast?_append, hmidl] at hc
    cases hbg : b.getLast? with
    | none =>
      rw [hbg] at hc
      simp only [Option.none_or, Option.or_some, Option.some.injEq] at hc
      rw [← hc]
      decide
    | some cb =>
      rw [hbg] at hc
      simp only [Option.or_some, Option.some.injEq] at hc
      rw [← hc]
      exact hbl cb hbg

set_option maxRecDepth 40000 in
/-- **C4** (amended): step 5 of `_parse_entry` collapses an *adjacent* (glued,
no separator) triple repetition of the footer phrase to exactly one canonical
`BAUVERWALTUNG WÜRENLOS` — for clean surroundings with no further
`b`/`B`, the normalised `others` is the surroundings with the triple replaced
by one canonical footer, which then occurs exactly once; and when the footer
phrase is absent from a non-empty clean `others`, a space and the canonical
footer are appended. -/
theorem c4_footer_collapse :
    (∀ a b : LC, C4Seg a → C4Seg b →
      (∀ c, a.head? = some c → isSpaceRe c = false) →
      (∀ c, b.getLast? = some c → isSpaceRe c = false) →
      othersNormalize (a ++ (footerRep3 ++ b)) = a ++ (footerCanon ++ b) ∧
      countOccur footerCanon (othersNormalize (a ++ (footerRep3 ++ b))) = 1) ∧
    (∀ o : LC, o ≠ [] → C4Seg o →
      (∀ c, o.head? = some c → isSpaceRe c = false) →
      (∀ c, o.getLast? = some c → isSpaceRe c = false) →
      containsSub footerCanon o = false ∧
      othersNormalize o = o ++ ' ' :: footerCanon ∧
      countOccur footerCanon (othersNormalize o) = 1) := by
  constructor
  · intro a b hA hB hah hbl
    obtain ⟨hap, hab, hapair⟩ := hA
    obtain ⟨hbp, hbb, hbpair⟩ := hB
    obtain ⟨hop, hopair, hoh, hol⟩ := c4_sandwich a b footerRep3 (by decide) (by decide)
      (by decide) (by decide) hap hapair hbp hbpair hah hbl
    obtain ⟨hfp, hfpair, hfh, hfl⟩ := c4_sandwich a b footerCanon (by decide) (by decide)
      (by decide) (by decide) hap hapair hbp hbpair hah hbl
    have hone : a ++ (footerRep3 ++ b) ≠ [] := by
      intro h
      have hlen := congrArg List.length h
      rw [List.length_append, List.length_append,
        show footerRep3.length = 66 from rfl] at hlen
      simp at hlen
    have hnorm : othersNormalize (a ++ (footerRep3 ++ b)) = a ++ (footerCanon ++ b) := by
      rw [othersNormalize, if_neg hone]
      dsimp only
      rw [stepPipe_id _ hop hopair hoh hol]
      rw [footerMultSub_rep3 a b hab hbb]
      rw [show lcOf "BAUVERWALTUNG WÜRENLOS" = footerCanon from rfl]
      rw [if_pos (containsSub_append_left _ a _ (containsSub_here footerCanon b))]
      exact cleanSpaces_eq_self _ hfp hfpair hfh hfl
    refine ⟨hnorm, ?_⟩
    rw [hnorm, countOccur_skip_bfree a _ hab, countOccur_fc_head b hbb]
  · intro o hone hO hoh hol
    obtain ⟨hop, hob, hopair⟩ := hO
    have hcontains : containsSub footerCanon o = false := containsSub_bfree o hob
    have hyp : ∀ c ∈ (' ' :: footerCanon), plainTxt c = true := by decide
    have hypair : hasPair isSpaceRe isSpaceRe (' ' :: footerCanon) = false := by decide
    have hwpair : hasPair isSpaceRe isSpaceRe (o ++ ' ' :: footerCanon) = false := by
      apply hasPair_append_false _ _ _ _ hopair hypair
      intro cx cy hcx hcy
      intro hcon
      have hx := hol cx hcx
      rw [hcon.1] at hx
      exact absurd hx (by decide)
    have hwp : ∀ c ∈ o ++ ' ' :: footerCanon, plainTxt c = true := by
      intro c hc
      rcases List.mem_append.mp hc with hc | hc
      · exact hop c hc
      · exact hyp c hc
    have hwh : ∀ c, (o ++ ' ' :: footerCanon).head? = some c → isSpaceRe c = false := by
      intro c hc
      cases o with
      | nil => exact absurd rfl hone
      | cons o0 os =>
        rw [List.cons_append, List.head?_cons, Option.some.injEq] at hc
        rw [← hc]
        exact hoh o0 rfl
    have hwl : ∀ c, (o ++ ' ' :: footerCanon).getLast? = some c → isSpaceRe c = false := by
      intro c hc
      rw [List.getLast?_append_of_ne_nil o (by simp)] at hc
      rw [show (' ' :: footerCanon).getLast? = some 'S' from by decide,
        Option.some.injEq] at hc
      rw [← hc]
      decide
    have hnorm : othersNormalize o = o ++ ' ' :: footerCanon := by
      rw [othersNormalize, if_neg hone]
      dsimp only
      rw [stepPipe_id o hop hopair hoh hol]
      rw [footerMultSub, footerMultGo_eq_self _ o hob]
      rw [if_neg (by
        intro hx
        rw [show lcOf "BAUVERWALTUNG WÜRENLOS" = footerCanon from rfl] at hx
        rw [hcontains] at hx
        exact absurd hx (by decide))]
      rw [show lcOf " BAUVERWALTUNG WÜRENLOS" = ' ' :: footerCanon from rfl]
      exact cleanSpaces_eq_self _ hwp hwpair hwh hwl
    refine ⟨hcontains, hnorm, ?_⟩
    rw [hnorm, countOccur_skip_bfree o _ hob]
    decide

set_option maxRecDepth 100000 in
/-- C4 counterexample: a footer phrase repeated 3 times consecutively but
with a single space between the repeats is not collapsed — the repetition
`(?:FTR_RAW)+` only merges glued repeats (each match ends at the final `S`,
so a separating space makes the next repeat a separate match, replaced by
itself) — and normalisation keeps all three occurrences. -/
theorem c4_counterexample :
    countOccur footerCanon (othersNormalize (lcOf
      "BAUVERWALTUNG WÜRENLOS BAUVERWALTUNG WÜRENLOS BAUVERWALTUNG WÜRENLOS")) = 3 := by
  decide

set_option maxRecDepth 100000 in
theorem c4_witness :
    othersNormalize (lcOf "Gesuchsauflage vom 8. Januar 2024 " ++ (footerRep3 ++ lcOf "x")) =
      lcOf "Gesuchsauflage vom 8. Januar 2024 " ++ (footerCanon ++ lcOf "x") ∧
    countOccur footerCanon (othersNormalize
      (lcOf "Gesuchsauflage vom 8. Januar 2024 " ++ (footerRep3 ++ lcOf "x"))) = 1 := by
  apply c4_footer_collapse.1
  · exact ⟨by decide, by decide, by decide⟩
  · exact ⟨by decide, by decide, by decide⟩
  · intro c hc
    rw [show (lcOf "Gesuchsauflage vom 8. Januar 2024 ").head? = some 'G' from rfl,
      Option.some.injEq] at hc
    rw [← hc]
    decide
  · intro c hc
    rw [show (lcOf "x").getLast? = some 'x' from by decide, Option.some.injEq] at hc
    rw [← hc]
    decide
